import Mathlib

/-!
Formal model of FreeCarnival's chunked download, ordered-write and
delta-update engine, embedded from `src/helpers.rs`, `src/shared/models.rs`,
`src/constants.rs` and `src/main.rs`, together with theorems checking the
specification's claims about it.

Conventions of the embedding:
  * Rust strings that are only compared for equality are Lean `String`s;
    strings whose individual bytes or characters matter (the Latin-1
    filename codec, the underscore-split of chunk shas) are `List Char`
    or `List Nat` (bytes).
  * Machine integers (`u8`, `u16`, `usize`) are `Nat`; truncating casts
    are explicit `% 256` etc.
  * SHA-256 plus lowercase-hex encoding is abstracted as a parameter
    `H : List Nat → List Char` of the definitions that use it: the claims
    under check are about the comparison and control flow around the
    digest, not about the compression function.
-/

/-- `ChangeTag` from src/shared/models.rs. -/
inductive ChangeTag
  | Added
  | Modified
  | Removed
deriving DecidableEq, Repr

/-- `BuildManifestRecord` from src/shared/models.rs (one file-manifest row).
`size_in_bytes` and `chunks` are Rust `usize`, `flags` is `u8`. -/
structure BuildManifestRecord where
  size_in_bytes : Nat
  chunks : Nat
  sha : String
  flags : Nat
  file_name : String
  tag : Option ChangeTag
deriving DecidableEq, Repr

/-- `BuildManifestRecord::is_directory`: flags 40 marks a directory row. -/
def BuildManifestRecord.is_directory (r : BuildManifestRecord) : Bool :=
  r.flags == 40

/-- `BuildManifestRecord.is_empty` (named `isEmptyFile` here because `is_empty`
collides with Lean's `List.isEmpty` idiom): size_in_bytes == 0. -/
def BuildManifestRecord.isEmptyFile (r : BuildManifestRecord) : Bool :=
  r.size_in_bytes == 0

/-- `BuildManifestChunksRecord` from src/shared/models.rs (one chunk-manifest
row); `id` is `u16`. The sha is kept as a character list because the
verification logic splits it on underscores. -/
structure BuildManifestChunksRecord where
  id : Nat
  file_path : String
  sha : List Char
deriving DecidableEq, Repr

/-! ## The Latin-1 filename codec (src/shared/models.rs lines 77-90)

`from_latin1_str` widens each byte to the character with that code point
(`char::from(u8)`); `to_latin1_bytes` narrows each character back with
`c as u8`, which keeps the low byte of the code point. -/

/-- `from_latin1_str`: decode filename bytes by widening each byte to its
code point. -/
def from_latin1_str (bs : List Nat) : List Char :=
  bs.map Char.ofNat

/-- `to_latin1_bytes`: encode a filename by narrowing each character to one
byte; `c as u8` in Rust truncates to the low eight bits. -/
def to_latin1_bytes (cs : List Char) : List Nat :=
  cs.map fun c => c.toNat % 256

theorem char_toNat_ofNat_of_lt {n : Nat} (h : n < 256) :
    (Char.ofNat n).toNat = n := by
  have hv : n.isValidChar := Or.inl (lt_trans h (by norm_num))
  unfold Char.ofNat
  simp [hv, Char.toNat, Char.ofNatAux]
  rfl

theorem list_map_eq_self_iff {α : Type} (f : α → α) (l : List α) :
    l.map f = l ↔ ∀ a ∈ l, f a = a := by
  induction l with
  | nil => simp
  | cons x xs ih => simp [ih]

/-- Claim C7: decoding a byte sequence by widening each byte to its code
point (Latin-1) and re-encoding by narrowing each code point back to one
byte reproduces the bytes exactly, so filename fields consisting of any
bytes (including 0x80-0xFF) survive the decode/encode round-trip. -/
theorem latin1_roundtrip (bs : List Nat) (h : ∀ b ∈ bs, b < 256) :
    to_latin1_bytes (from_latin1_str bs) = bs := by
  unfold to_latin1_bytes from_latin1_str
  rw [List.map_map]
  rw [list_map_eq_self_iff]
  intro b hb
  have hlt := h b hb
  simp only [Function.comp_apply]
  rw [char_toNat_ofNat_of_lt hlt]
  exact Nat.mod_eq_of_lt hlt

/-- Witness for C7: the byte string 0x41 0x80 0xFF (which is not valid
UTF-8) round-trips bit-for-bit. -/
theorem latin1_roundtrip_witness :
    (∀ b ∈ [0x41, 0x80, 0xFF], b < 256) ∧
      to_latin1_bytes (from_latin1_str [0x41, 0x80, 0xFF]) = [0x41, 0x80, 0xFF] :=
  ⟨by decide, latin1_roundtrip [0x41, 0x80, 0xFF] (by decide)⟩

/-- Claim C10: the encoder keeps only the low byte of each code point
(`c as u8`), so encode-then-decode is the identity exactly on strings whose
characters all lie below U+0100; a string containing a character at or
above U+0100 is silently mapped to bytes that decode to a different string
(lossy), never rejected (the encoder is total). -/
theorem latin1_encode_decode_id_iff (cs : List Char) :
    from_latin1_str (to_latin1_bytes cs) = cs ↔ ∀ c ∈ cs, c.toNat < 256 := by
  unfold to_latin1_bytes from_latin1_str
  rw [List.map_map, list_map_eq_self_iff]
  constructor
  · intro h c hc
    have hx := h c hc
    simp only [Function.comp_apply] at hx
    by_contra hge
    push_neg at hge
    have hlt : c.toNat % 256 < 256 := Nat.mod_lt _ (by norm_num)
    have hh : (Char.ofNat (c.toNat % 256)).toNat = c.toNat % 256 :=
      char_toNat_ofNat_of_lt hlt
    rw [hx] at hh
    omega
  · intro h c hc
    have hlt := h c hc
    have hmod : c.toNat % 256 = c.toNat := Nat.mod_eq_of_lt hlt
    simp only [Function.comp_apply, hmod]
    exact Char.ofNat_toNat c

/-! ## DeltaComputer: the file delta
(src/helpers.rs, `read_or_generate_delta_manifest`, lines 99-182; the pure
delta computation, i.e. the code between the cache read and the cache
write.) -/

/-- The `modified` boolean of `read_or_generate_delta_manifest`: whether the
first old row with the new row's file name (if any) carries a different sha. -/
def modifiedCheck (old_m : List BuildManifestRecord) (ne : BuildManifestRecord) : Bool :=
  match old_m.find? fun e => e.file_name == ne.file_name with
  | some old_entry => old_entry.sha != ne.sha
  | none => false

/-- The body of the first loop of `read_or_generate_delta_manifest`: for one
row of the new manifest, emit it tagged Added when no old row has its
file name, tagged Modified when the first old row with its file name has a
different sha, and nothing otherwise. -/
def deltaNewRow (old_m : List BuildManifestRecord) (ne : BuildManifestRecord) :
    Option BuildManifestRecord :=
  if !(old_m.any fun e => e.file_name == ne.file_name) then
    some { ne with tag := some ChangeTag.Added }
  else if modifiedCheck old_m ne then
    some { ne with tag := some ChangeTag.Modified }
  else none

/-- The body of the second loop of `read_or_generate_delta_manifest`: an old
row whose file name is absent from the new manifest's file-name set is
emitted tagged Removed. -/
def deltaOldRow (new_file_names : List String) (oe : BuildManifestRecord) :
    Option BuildManifestRecord :=
  if !(new_file_names.contains oe.file_name) then
    some { oe with tag := some ChangeTag.Removed }
  else none

/-- The delta-manifest computation of `read_or_generate_delta_manifest`:
the serialized rows are the first loop's emissions (over the new manifest in
order) followed by the second loop's emissions (over the old manifest in
order). -/
def generate_delta_manifest (old_m new_m : List BuildManifestRecord) :
    List BuildManifestRecord :=
  new_m.filterMap (deltaNewRow old_m) ++
    old_m.filterMap (deltaOldRow (new_m.map (fun r => r.file_name)))

theorem deltaNewRow_tag {old_m : List BuildManifestRecord}
    {ne r : BuildManifestRecord} (h : deltaNewRow old_m ne = some r) :
    r.tag = some ChangeTag.Added ∨ r.tag = some ChangeTag.Modified := by
  unfold deltaNewRow at h
  split at h
  · cases h
    left
    rfl
  · split at h
    · cases h
      right
      rfl
    · cases h

theorem deltaOldRow_tag {new_file_names : List String}
    {oe r : BuildManifestRecord} (h : deltaOldRow new_file_names oe = some r) :
    r.tag = some ChangeTag.Removed := by
  unfold deltaOldRow at h
  split at h
  · cases h
    rfl
  · cases h

theorem any_name_eq_false_iff {l : List BuildManifestRecord} {n : String} :
    (l.any fun e => e.file_name == n) = false ↔ ∀ e ∈ l, e.file_name ≠ n := by
  rw [← Bool.not_eq_true, List.any_eq_true]
  push_neg
  simp

theorem mem_delta_added_iff (old_m new_m : List BuildManifestRecord)
    (r : BuildManifestRecord) :
    (r ∈ generate_delta_manifest old_m new_m ∧ r.tag = some ChangeTag.Added) ↔
      ∃ ne ∈ new_m, (∀ oe ∈ old_m, oe.file_name ≠ ne.file_name) ∧
        r = { ne with tag := some ChangeTag.Added } := by
  constructor
  · rintro ⟨hmem, htag⟩
    rw [generate_delta_manifest, List.mem_append] at hmem
    rcases hmem with hmem | hmem
    · rw [List.mem_filterMap] at hmem
      rcases hmem with ⟨ne, hne, hrow⟩
      unfold deltaNewRow at hrow
      split at hrow
      next hg =>
        cases hrow
        refine ⟨ne, hne, ?_, rfl⟩
        rw [Bool.not_eq_eq_eq_not, Bool.not_true, any_name_eq_false_iff] at hg
        exact hg
      next =>
        split at hrow
        · cases hrow
          simp at htag
        · cases hrow
    · rw [List.mem_filterMap] at hmem
      rcases hmem with ⟨oe, _, hrow⟩
      rw [deltaOldRow_tag hrow] at htag
      simp at htag
  · rintro ⟨ne, hne, habs, rfl⟩
    refine ⟨?_, rfl⟩
    rw [generate_delta_manifest, List.mem_append]
    left
    rw [List.mem_filterMap]
    refine ⟨ne, hne, ?_⟩
    unfold deltaNewRow
    have hg : (old_m.any fun e => e.file_name == ne.file_name) = false :=
      any_name_eq_false_iff.mpr habs
    rw [hg]
    rfl

theorem mem_delta_modified_iff (old_m new_m : List BuildManifestRecord)
    (r : BuildManifestRecord) :
    (r ∈ generate_delta_manifest old_m new_m ∧ r.tag = some ChangeTag.Modified) ↔
      ∃ ne ∈ new_m, ∃ oe,
        (old_m.find? fun e => e.file_name == ne.file_name) = some oe ∧
          oe.sha ≠ ne.sha ∧ r = { ne with tag := some ChangeTag.Modified } := by
  constructor
  · rintro ⟨hmem, htag⟩
    rw [generate_delta_manifest, List.mem_append] at hmem
    rcases hmem with hmem | hmem
    · rw [List.mem_filterMap] at hmem
      rcases hmem with ⟨ne, hne, hrow⟩
      unfold deltaNewRow at hrow
      split at hrow
      next =>
        cases hrow
        simp at htag
      next hg =>
        split at hrow
        next hm =>
          cases hrow
          unfold modifiedCheck at hm
          rcases hf : old_m.find? fun e => e.file_name == ne.file_name with _ | oe <;>
              rw [hf] at hm
          · cases hm
          · refine ⟨ne, hne, oe, hf, ?_, rfl⟩
            simpa using hm
        · cases hrow
    · rw [List.mem_filterMap] at hmem
      rcases hmem with ⟨oe, _, hrow⟩
      rw [deltaOldRow_tag hrow] at htag
      simp at htag
  · rintro ⟨ne, hne, oe, hfind, hsha, rfl⟩
    refine ⟨?_, rfl⟩
    rw [generate_delta_manifest, List.mem_append]
    left
    rw [List.mem_filterMap]
    refine ⟨ne, hne, ?_⟩
    unfold deltaNewRow
    have hany : (old_m.any fun e => e.file_name == ne.file_name) = true := by
      rw [List.any_eq_true]
      refine ⟨oe, List.mem_of_find?_eq_some hfind, ?_⟩
      have hp := List.find?_some hfind
      exact hp
    rw [hany]
    have hm : modifiedCheck old_m ne = true := by
      unfold modifiedCheck
      rw [hfind]
      simpa using hsha
    rw [hm]
    rfl

theorem mem_delta_removed_iff (old_m new_m : List BuildManifestRecord)
    (r : BuildManifestRecord) :
    (r ∈ generate_delta_manifest old_m new_m ∧ r.tag = some ChangeTag.Removed) ↔
      ∃ oe ∈ old_m, (∀ ne ∈ new_m, ne.file_name ≠ oe.file_name) ∧
        r = { oe with tag := some ChangeTag.Removed } := by
  constructor
  · rintro ⟨hmem, htag⟩
    rw [generate_delta_manifest, List.mem_append] at hmem
    rcases hmem with hmem | hmem
    · rw [List.mem_filterMap] at hmem
      rcases hmem with ⟨ne, _, hrow⟩
      rcases deltaNewRow_tag hrow with h | h <;> rw [h] at htag <;> simp at htag
    · rw [List.mem_filterMap] at hmem
      rcases hmem with ⟨oe, hoe, hrow⟩
      unfold deltaOldRow at hrow
      split at hrow
      next hg =>
        cases hrow
        refine ⟨oe, hoe, ?_, rfl⟩
        rw [Bool.not_eq_eq_eq_not, Bool.not_true] at hg
        intro ne hne
        intro heq
        have hmm : oe.file_name ∈ new_m.map fun q => q.file_name :=
          List.mem_map.mpr ⟨ne, hne, heq⟩
        have hc : (new_m.map fun r => r.file_name).contains oe.file_name = true :=
          List.elem_iff.mpr hmm
        rw [hc] at hg
        simp at hg
      next =>
        cases hrow
  · rintro ⟨oe, hoe, habs, rfl⟩
    refine ⟨?_, rfl⟩
    rw [generate_delta_manifest, List.mem_append]
    right
    rw [List.mem_filterMap]
    refine ⟨oe, hoe, ?_⟩
    unfold deltaOldRow
    have hg : (new_m.map fun q => q.file_name).contains oe.file_name = false := by
      rw [← Bool.not_eq_true]
      intro hc
      rcases List.mem_map.mp (List.elem_iff.mp hc) with ⟨ne, hne, heq⟩
      exact habs ne hne heq
    rw [hg]
    rfl

theorem generate_delta_manifest_self (fm : List BuildManifestRecord)
    (h : (fm.map fun r => r.file_name).Nodup) :
    generate_delta_manifest fm fm = [] := by
  unfold generate_delta_manifest
  rw [List.append_eq_nil]
  constructor
  · rw [List.filterMap_eq_nil_iff]
    intro ne hne
    unfold deltaNewRow
    have hany : (fm.any fun e => e.file_name == ne.file_name) = true := by
      rw [List.any_eq_true]
      exact ⟨ne, hne, by simp⟩
    rw [hany]
    have hm : modifiedCheck fm ne = false := by
      unfold modifiedCheck
      rcases hf : fm.find? fun e => e.file_name == ne.file_name with _ | oe
      · rw [hf]
      · rw [hf]
        have hoe_mem := List.mem_of_find?_eq_some hf
        have hp := List.find?_some hf
        simp only [beq_iff_eq] at hp
        have hoe : oe = ne := List.inj_on_of_nodup_map h hoe_mem hne hp
        rw [hoe]
        simp
    rw [hm]
    simp
  · rw [List.filterMap_eq_nil_iff]
    intro oe hoe
    unfold deltaOldRow
    have hc : (fm.map fun r => r.file_name).contains oe.file_name = true :=
      List.elem_iff.mpr (List.mem_map.mpr ⟨oe, hoe, rfl⟩)
    rw [hc]
    simp

/-- Claim C4 counterexample: `computeFileDelta(fm, fm)` is NOT empty for
every file manifest fm: with two rows sharing the file name "a" but carrying
different shas, the second row reappears tagged Modified (the sha comparison
is always made against the first old row with that name). -/
theorem delta_manifest_self_counterexample :
    generate_delta_manifest
        [{ size_in_bytes := 1, chunks := 1, sha := "x", flags := 0,
           file_name := "a", tag := none },
         { size_in_bytes := 1, chunks := 1, sha := "y", flags := 0,
           file_name := "a", tag := none }]
        [{ size_in_bytes := 1, chunks := 1, sha := "x", flags := 0,
           file_name := "a", tag := none },
         { size_in_bytes := 1, chunks := 1, sha := "y", flags := 0,
           file_name := "a", tag := none }] ≠ [] := by
  decide

/-- Claim C4 (amended): computeFileDelta emits, first, for each row of
new_fm in original order, the row tagged Added when its file_name is absent
from old_fm and the new row tagged Modified when the FIRST old_fm row with
that file_name has a different sha (nothing when that sha is unchanged);
then, for each row of old_fm in original order, the old row tagged Removed
when its file_name is absent from new_fm. All Added and Modified rows
precede all Removed rows, and computeFileDelta(fm, fm) yields an empty
delta provided fm's file names are pairwise distinct. -/
theorem delta_manifest_rules (old_m new_m fm : List BuildManifestRecord)
    (hfm : (fm.map fun r => r.file_name).Nodup) :
    (∃ A R, generate_delta_manifest old_m new_m = A ++ R ∧
        (∀ a ∈ A, a.tag = some ChangeTag.Added ∨ a.tag = some ChangeTag.Modified) ∧
        (∀ b ∈ R, b.tag = some ChangeTag.Removed)) ∧
    (∀ r, (r ∈ generate_delta_manifest old_m new_m ∧ r.tag = some ChangeTag.Added) ↔
        ∃ ne ∈ new_m, (∀ oe ∈ old_m, oe.file_name ≠ ne.file_name) ∧
          r = { ne with tag := some ChangeTag.Added }) ∧
    (∀ r, (r ∈ generate_delta_manifest old_m new_m ∧ r.tag = some ChangeTag.Modified) ↔
        ∃ ne ∈ new_m, ∃ oe,
          (old_m.find? fun e => e.file_name == ne.file_name) = some oe ∧
            oe.sha ≠ ne.sha ∧ r = { ne with tag := some ChangeTag.Modified }) ∧
    (∀ r, (r ∈ generate_delta_manifest old_m new_m ∧ r.tag = some ChangeTag.Removed) ↔
        ∃ oe ∈ old_m, (∀ ne ∈ new_m, ne.file_name ≠ oe.file_name) ∧
          r = { oe with tag := some ChangeTag.Removed }) ∧
    generate_delta_manifest fm fm = [] := by
  refine ⟨⟨_, _, rfl, ?_, ?_⟩,
      mem_delta_added_iff old_m new_m, mem_delta_modified_iff old_m new_m,
      mem_delta_removed_iff old_m new_m, generate_delta_manifest_self fm hfm⟩
  · intro a ha
    rcases List.mem_filterMap.mp ha with ⟨ne, _, hrow⟩
    exact deltaNewRow_tag hrow
  · intro b hb
    rcases List.mem_filterMap.mp hb with ⟨oe, _, hrow⟩
    exact deltaOldRow_tag hrow

/-- Witness for the amended C4: scenario 5 of the specification. Old manifest
has a.txt (sha X) and b.txt (sha Y); the new manifest has a.txt (sha X),
b.txt (sha Z) and c.txt (sha W); the delta is exactly (b.txt, Modified) then
(c.txt, Added), and the self-delta of a duplicate-free manifest is empty. -/
theorem delta_manifest_rules_witness :
    generate_delta_manifest
        [{ size_in_bytes := 1, chunks := 1, sha := "X", flags := 0,
           file_name := "a.txt", tag := none },
         { size_in_bytes := 1, chunks := 1, sha := "Y", flags := 0,
           file_name := "b.txt", tag := none }]
        [{ size_in_bytes := 1, chunks := 1, sha := "X", flags := 0,
           file_name := "a.txt", tag := none },
         { size_in_bytes := 1, chunks := 1, sha := "Z", flags := 0,
           file_name := "b.txt", tag := none },
         { size_in_bytes := 1, chunks := 1, sha := "W", flags := 0,
           file_name := "c.txt", tag := none }] =
      [{ size_in_bytes := 1, chunks := 1, sha := "Z", flags := 0,
         file_name := "b.txt", tag := some ChangeTag.Modified },
       { size_in_bytes := 1, chunks := 1, sha := "W", flags := 0,
         file_name := "c.txt", tag := some ChangeTag.Added }] ∧
    generate_delta_manifest
        [{ size_in_bytes := 1, chunks := 1, sha := "X", flags := 0,
           file_name := "a.txt", tag := none },
         { size_in_bytes := 1, chunks := 1, sha := "Y", flags := 0,
           file_name := "b.txt", tag := none }]
        [{ size_in_bytes := 1, chunks := 1, sha := "X", flags := 0,
           file_name := "a.txt", tag := none },
         { size_in_bytes := 1, chunks := 1, sha := "Y", flags := 0,
           file_name := "b.txt", tag := none }] = [] := by
  constructor
  · decide
  · exact (delta_manifest_rules
      [{ size_in_bytes := 1, chunks := 1, sha := "X", flags := 0,
         file_name := "a.txt", tag := none },
       { size_in_bytes := 1, chunks := 1, sha := "Y", flags := 0,
         file_name := "b.txt", tag := none }]
      [{ size_in_bytes := 1, chunks := 1, sha := "X", flags := 0,
         file_name := "a.txt", tag := none },
       { size_in_bytes := 1, chunks := 1, sha := "Z", flags := 0,
         file_name := "b.txt", tag := none },
       { size_in_bytes := 1, chunks := 1, sha := "W", flags := 0,
         file_name := "c.txt", tag := none }]
      [{ size_in_bytes := 1, chunks := 1, sha := "X", flags := 0,
         file_name := "a.txt", tag := none },
       { size_in_bytes := 1, chunks := 1, sha := "Y", flags := 0,
         file_name := "b.txt", tag := none }] (by decide)).2.2.2.2

/-! ## Chunk verification
(src/helpers.rs: `verify_chunk` lines 602-609 and the fetch task's
verification branch, lines 506-528.) -/

/-- Rust `str::split('_')`, structurally: the first component is the segment
before the first underscore, the second the remaining segments. -/
def splitUnderscore : List Char → List Char × List (List Char)
  | [] => ([], [])
  | c :: cs =>
    let r := splitUnderscore cs
    if c = '_' then ([], r.1 :: r.2) else (c :: r.1, r.2)

/-- `record.sha.split('_').collect::<Vec<&str>>()`: the list of
underscore-separated segments of a chunk sha. -/
def shaParts (sha : List Char) : List (List Char) :=
  (splitUnderscore sha).1 :: (splitUnderscore sha).2

/-- `chunk_parts.last()`: `none` exactly when the segment list is empty. -/
def lastShaPart (sha : List Char) : Option (List Char) :=
  (shaParts sha).getLast?

/-- `verify_chunk`: hash the chunk bytes, hex-encode in lowercase, and
compare with the expected segment. The SHA-256-and-hex step is the abstract
parameter `H`. -/
def verify_chunk (H : List Nat → List Char) (chunk : List Nat)
    (sha : List Char) : Bool :=
  H chunk == sha

/-- The fetch task's outcome after the download returns. -/
inductive FetchOutcome
  | forwarded (verified : Bool)
  | rejected
deriving DecidableEq, Repr

/-- The decision the fetch task makes between download completion and the
channel send (src/helpers.rs lines 506-530): with skip_verify the chunk is
forwarded unverified; otherwise the sha is split on underscores and the
chunk is verified against the last segment when the iterator yields one
(the task returns false — rejecting the chunk, which is never sent — on
mismatch), and forwarded unverified with a warning when it yields none. -/
def fetchTaskOutcome (H : List Nat → List Char) (skip_verify : Bool)
    (record : BuildManifestChunksRecord) (chunk : List Nat) : FetchOutcome :=
  if skip_verify then FetchOutcome.forwarded false
  else
    match lastShaPart record.sha with
    | some chunk_sha =>
        if !(verify_chunk H chunk chunk_sha) then FetchOutcome.rejected
        else FetchOutcome.forwarded true
    | none => FetchOutcome.forwarded false

theorem getLast?_cons_ne_none {α : Type} (a : α) (l : List α) :
    (a :: l).getLast? ≠ none := by
  induction l generalizing a with
  | nil => simp
  | cons b bs ih =>
    rw [List.getLast?_cons_cons]
    exact ih b

theorem lastShaPart_ne_none (sha : List Char) : lastShaPart sha ≠ none :=
  getLast?_cons_ne_none _ _

/-- Claim C8: with verification enabled, a fetched chunk whose sha has a
trailing underscore-segment is hashed and compared against that segment and
forwarded to the writer exactly on a match (rejected exactly on a
mismatch); a chunk sha whose segment iterator yields no trailing segment
would be forwarded unverified with a warning — and the final conjunct shows
this case never occurs, because splitting any string on underscores yields
at least one segment. -/
theorem chunk_verification_behaviour (H : List Nat → List Char)
    (record : BuildManifestChunksRecord) (chunk : List Nat) :
    (∀ seg, lastShaPart record.sha = some seg →
        (fetchTaskOutcome H false record chunk = FetchOutcome.forwarded true ↔
          H chunk = seg) ∧
        (fetchTaskOutcome H false record chunk = FetchOutcome.rejected ↔
          H chunk ≠ seg)) ∧
    (lastShaPart record.sha = none →
        fetchTaskOutcome H false record chunk = FetchOutcome.forwarded false) ∧
    lastShaPart record.sha ≠ none := by
  refine ⟨?_, ?_, lastShaPart_ne_none record.sha⟩
  · intro seg hseg
    unfold fetchTaskOutcome
    rw [hseg]
    by_cases h : H chunk = seg
    · simp [verify_chunk, h]
    · simp only [if_neg]
      constructor <;> simp [verify_chunk, h]
  · intro hnone
    unfold fetchTaskOutcome
    rw [hnone]
    simp

/-! ## The write plan and the writer task
(src/helpers.rs `build_from_manifest`: Phase B queue construction lines
390-408, writer task lines 414-481, join and result lines 534-543.)

The writer's buffer (`in_buffer`) is keyed by the string
`format!("{},{}", id, sha)`; since `id` prints without commas, that string
determines and is determined by the pair `(id, sha)`, which is the key type
used here. -/

/-- One entry of `write_queue`: `(record.sha.clone(), record.id, is_last)`. -/
structure PlanEntry where
  sha : List Char
  id : Nat
  is_last : Bool
deriving DecidableEq, Repr

/-- One message on the chunk channel: `(record, chunk_bytes)`; the memory
permit that travels in the triple is modelled in the memory-bound section. -/
structure ChunkMsg where
  record : BuildManifestChunksRecord
  bytes : List Nat
deriving DecidableEq, Repr

/-- The buffer key `format!("{},{}", id, sha)` as the pair it encodes. -/
def PlanEntry.key (e : PlanEntry) : Nat × List Char :=
  (e.id, e.sha)

def ChunkMsg.key (m : ChunkMsg) : Nat × List Char :=
  (m.record.id, m.record.sha)

/-- `in_buffer`: a map from buffer keys to `(file_path, bytes)`. -/
def Buf : Type :=
  Nat × List Char → Option (String × List Nat)

def emptyBuf : Buf :=
  fun _ => none

/-- `HashMap::insert` (replacing any previous value at the key). -/
def insertBuf (b : Buf) (k : Nat × List Char) (v : String × List Nat) : Buf :=
  fun q => if q = k then some v else b q

/-- `HashMap::remove`. -/
def eraseBuf (b : Buf) (k : Nat × List Char) : Buf :=
  fun q => if q = k then none else b q

/-- Phase B (lines 393-407): scan the chunk manifest, look up the
file's chunk count (a panicking index when absent, hence `Option`), mark
the row as last when `count - 1 == id`, drop the map entry on the last
chunk, and push `(sha, id, is_last)` onto the write queue and the record
onto the chunk queue. -/
def buildQueues (counts : List (String × Nat)) :
    List BuildManifestChunksRecord →
      Option (List PlanEntry × List BuildManifestChunksRecord)
  | [] => some ([], [])
  | r :: rs =>
    match (counts.find? fun p => p.1 == r.file_path).map (fun p => p.2) with
    | none => none
    | some cnt =>
      let is_last := cnt - 1 == r.id
      let counts1 := if is_last then counts.filter (fun p => !(p.1 == r.file_path))
        else counts
      match buildQueues counts1 rs with
      | none => none
      | some (plan, cq) => some (⟨r.sha, r.id, is_last⟩ :: plan, r :: cq)

/-- The writer's inner loop (lines 434-478): repeatedly peek the head of
the write plan, and while the buffer holds that key, remove it, append the
bytes to its file and pop the plan head; it stops when the head is missing
from the buffer, and when the plan empties the writer task returns. The
appends are accumulated in order in the third component. -/
def drain : List PlanEntry → Buf → List (String × List Nat) →
    List PlanEntry × Buf × List (String × List Nat)
  | [], b, acc => ([], b, acc)
  | e :: rest, b, acc =>
    match b e.key with
    | some fb => drain rest (eraseBuf b e.key) (acc ++ [fb])
    | none => (e :: rest, b, acc)

/-- The writer task's outer loop (lines 420-480): while the write plan is
non-empty, receive a message (when the channel has closed — modelled by the
message list running out — log and break out normally), insert it into the
buffer under its `(id, sha)` key, and run the inner drain loop. Returns the
appends performed, in order, and the part of the write plan that was never
drained. -/
def writerLoop : List ChunkMsg → List PlanEntry → Buf →
    List (String × List Nat) → List (String × List Nat) × List PlanEntry
  | _, [], _, acc => (acc, [])
  | [], e :: ps, _, acc => (acc, e :: ps)
  | m :: rest, e :: ps, b, acc =>
    let b1 := insertBuf b m.key (m.record.file_path, m.bytes)
    let d := drain (e :: ps) b1 acc
    writerLoop rest d.1 d.2.1 d.2.2

/-- One writer-task run from the initial state (empty buffer, no appends). -/
def writerRun (plan : List PlanEntry) (msgs : List ChunkMsg) :
    List (String × List Nat) × List PlanEntry :=
  writerLoop msgs plan emptyBuf []

/-- What `build_from_manifest` returns once the writer task joins
(lines 534-543): the writer task's return type is `()` — it has no error
value — and the function then returns `Ok(true)` unconditionally
(`// TODO: Redo logic for verification`). -/
def build_from_manifest_result
    (_writer : List (String × List Nat) × List PlanEntry) : Bool :=
  true

/-- The bytes of file `F` after a run: files are created empty in Phase A
and opened in append mode, so F's content is the concatenation of the
appends addressed to F, in append order. -/
def fileContent (F : String) (appends : List (String × List Nat)) : List Nat :=
  ((appends.filter fun a => a.1 == F).map fun a => a.2).flatten

theorem drain_spec (data : Nat × List Char → String × List Nat) :
    ∀ (plan : List PlanEntry) (buf : Buf) (acc : List (String × List Nat)),
    (plan.map PlanEntry.key).Nodup →
    (∀ k, buf k = none ∨ buf k = some (data k)) →
    ∃ pre rest,
      plan = pre ++ rest ∧
      (drain plan buf acc).1 = rest ∧
      (drain plan buf acc).2.2 = acc ++ pre.map (fun e => data e.key) ∧
      (∀ k, (drain plan buf acc).2.1 k = none ∨
        (drain plan buf acc).2.1 k = some (data k)) ∧
      (∀ k, k ∉ pre.map PlanEntry.key → (drain plan buf acc).2.1 k = buf k) ∧
      (∀ e rs, rest = e :: rs → (drain plan buf acc).2.1 e.key = none) := by
  intro plan
  induction plan with
  | nil =>
    intro buf acc _ hbuf
    refine ⟨[], [], rfl, rfl, by simp [drain], ?_, ?_, ?_⟩
    · intro k
      exact hbuf k
    · intro k _
      rfl
    · intro e rs h
      cases h
  | cons e ps ih =>
    intro buf acc hnd hbuf
    rcases hb : buf e.key with _ | v
    · refine ⟨[], e :: ps, rfl, ?_, ?_, ?_, ?_, ?_⟩
      · simp [drain, hb]
      · simp [drain, hb]
      · intro k
        simp only [drain, hb]
        exact hbuf k
      · intro k _
        simp [drain, hb]
      · intro f rs h
        simp only [drain, hb]
        cases h
        exact hb
    · have hv : v = data e.key := by
        rcases hbuf e.key with h | h
        · rw [h] at hb
          cases hb
        · rw [h] at hb
          exact (Option.some_inj.mp hb).symm
      have hnd' : (ps.map PlanEntry.key).Nodup := by
        rw [List.map_cons] at hnd
        exact hnd.of_cons
      have hbuf' : ∀ k, eraseBuf buf e.key k = none ∨
          eraseBuf buf e.key k = some (data k) := by
        intro k
        unfold eraseBuf
        by_cases hk : k = e.key
        · rw [if_pos hk]
          left
          rfl
        · rw [if_neg hk]
          exact hbuf k
      rcases ih (eraseBuf buf e.key) (acc ++ [v]) hnd' hbuf' with
        ⟨pre, rest, hsplit, h1, h2, h3, h4, h5⟩
      have hred : drain (e :: ps) buf acc =
          drain ps (eraseBuf buf e.key) (acc ++ [v]) := by
        simp [drain, hb]
      refine ⟨e :: pre, rest, ?_, ?_, ?_, ?_, ?_, ?_⟩
      · rw [hsplit]
        rfl
      · rw [hred]
        exact h1
      · rw [hred, h2, hv]
        simp
      · intro k
        rw [hred]
        exact h3 k
      · intro k hk
        rw [List.map_cons, List.mem_cons] at hk
        push_neg at hk
        rw [hred, h4 k hk.2]
        unfold eraseBuf
        rw [if_neg hk.1]
      · intro f rs h
        rw [hred]
        exact h5 f rs h

theorem drain_suffix (plan : List PlanEntry) (buf : Buf)
    (acc : List (String × List Nat)) :
    ∃ pre, plan = pre ++ (drain plan buf acc).1 := by
  induction plan generalizing buf acc with
  | nil => exact ⟨[], rfl⟩
  | cons e ps ih =>
    rcases hb : buf e.key with _ | v
    · refine ⟨[], ?_⟩
      simp [drain, hb]
    · rcases ih (eraseBuf buf e.key) (acc ++ [v]) with ⟨pre, hpre⟩
      refine ⟨e :: pre, ?_⟩
      have hred : drain (e :: ps) buf acc =
          drain ps (eraseBuf buf e.key) (acc ++ [v]) := by
        simp [drain, hb]
      rw [hred]
      exact congrArg (List.cons e) hpre

theorem writerLoop_suffix :
    ∀ (ms : List ChunkMsg) (plan : List PlanEntry) (buf : Buf)
      (acc : List (String × List Nat)),
    ∃ done, plan = done ++ (writerLoop ms plan buf acc).2 := by
  intro ms
  induction ms with
  | nil =>
    intro plan buf acc
    cases plan with
    | nil => exact ⟨[], rfl⟩
    | cons e ps => exact ⟨[], rfl⟩
  | cons m rest ih =>
    intro plan buf acc
    cases plan with
    | nil => exact ⟨[], rfl⟩
    | cons e ps =>
      have hred : writerLoop (m :: rest) (e :: ps) buf acc =
          writerLoop rest
            (drain (e :: ps) (insertBuf buf m.key (m.record.file_path, m.bytes)) acc).1
            (drain (e :: ps) (insertBuf buf m.key (m.record.file_path, m.bytes)) acc).2.1
            (drain (e :: ps) (insertBuf buf m.key (m.record.file_path, m.bytes)) acc).2.2 := by
        rfl
      rcases drain_suffix (e :: ps)
          (insertBuf buf m.key (m.record.file_path, m.bytes)) acc with ⟨pre, hpre⟩
      rcases ih (drain (e :: ps) (insertBuf buf m.key (m.record.file_path, m.bytes)) acc).1
          (drain (e :: ps) (insertBuf buf m.key (m.record.file_path, m.bytes)) acc).2.1
          (drain (e :: ps) (insertBuf buf m.key (m.record.file_path, m.bytes)) acc).2.2 with
        ⟨done2, hdone2⟩
      refine ⟨pre ++ done2, ?_⟩
      rw [hred, List.append_assoc, ← hdone2, ← hpre]

theorem writerLoop_complete (data : Nat × List Char → String × List Nat) :
    ∀ (ms : List ChunkMsg) (planRem : List PlanEntry) (buf : Buf)
      (acc : List (String × List Nat)),
    (planRem.map PlanEntry.key).Nodup →
    (∀ k, buf k = none ∨ buf k = some (data k)) →
    (∀ e ∈ planRem, buf e.key ≠ none ∨ ∃ m ∈ ms, ChunkMsg.key m = e.key) →
    (∀ m ∈ ms, (m.record.file_path, m.bytes) = data m.key) →
    (∀ e rs, planRem = e :: rs → buf e.key = none) →
    writerLoop ms planRem buf acc =
      (acc ++ planRem.map (fun e => data e.key), []) := by
  intro ms
  induction ms with
  | nil =>
    intro planRem buf acc hnd hbuf hcov hd hblock
    cases planRem with
    | nil => simp [writerLoop]
    | cons e ps =>
      rcases hcov e (List.mem_cons_self e ps) with h | ⟨m, hm, _⟩
      · exact absurd (hblock e ps rfl) h
      · cases hm
  | cons m rest ih =>
    intro planRem buf acc hnd hbuf hcov hd hblock
    cases planRem with
    | nil => simp [writerLoop]
    | cons e ps =>
      set b1 := insertBuf buf m.key (m.record.file_path, m.bytes) with hb1
      have hmdata := hd m (List.mem_cons_self m rest)
      have hb1correct : ∀ k, b1 k = none ∨ b1 k = some (data k) := by
        intro k
        rw [hb1]
        unfold insertBuf
        by_cases hk : k = m.key
        · rw [if_pos hk]
          right
          rw [hmdata, hk]
        · rw [if_neg hk]
          exact hbuf k
      rcases drain_spec data (e :: ps) b1 acc hnd hb1correct with
        ⟨pre, rest', hsplit, h1, h2, h3, h4, h5⟩
      have hred : writerLoop (m :: rest) (e :: ps) buf acc =
          writerLoop rest (drain (e :: ps) b1 acc).1 (drain (e :: ps) b1 acc).2.1
            (drain (e :: ps) b1 acc).2.2 := rfl
      have hndparts : ((e :: ps).map PlanEntry.key).Nodup := hnd
      rw [hsplit, List.map_append] at hndparts
      have hndsplit := List.nodup_append.mp hndparts
      have hndrest : (rest'.map PlanEntry.key).Nodup := hndsplit.2.1
      have hdisj := hndsplit.2.2
      have hcov' : ∀ f ∈ rest', (drain (e :: ps) b1 acc).2.1 f.key ≠ none ∨
          ∃ m' ∈ rest, ChunkMsg.key m' = f.key := by
        intro f hf
        have hfmem : f ∈ e :: ps := by
          rw [hsplit]
          exact List.mem_append_right _ hf
        have hkey_not_pre : f.key ∉ pre.map PlanEntry.key := by
          intro hin
          exact hdisj hin (List.mem_map_of_mem PlanEntry.key hf)
        rcases hcov f hfmem with h | ⟨m', hm', hkeq⟩
        · left
          rw [h4 f.key hkey_not_pre, hb1]
          unfold insertBuf
          by_cases hk : f.key = m.key
          · rw [if_pos hk]
            simp
          · rw [if_neg hk]
            exact h
        · rcases List.mem_cons.mp hm' with heq | hm'rest
          · left
            rw [h4 f.key hkey_not_pre, hb1]
            unfold insertBuf
            rw [heq] at hkeq
            rw [if_pos hkeq.symm]
            simp
          · right
            exact ⟨m', hm'rest, hkeq⟩
      have hd' : ∀ m' ∈ rest, (m'.record.file_path, m'.bytes) = data m'.key :=
        fun m' hm' => hd m' (List.mem_cons_of_mem m hm')
      have hstep := ih rest' (drain (e :: ps) b1 acc).2.1
        (acc ++ pre.map (fun q => data q.key)) hndrest h3 hcov' hd' h5
      rw [hred, h1, h2, hstep, hsplit]
      rw [List.map_append, List.append_assoc]

theorem buildQueues_spec :
    ∀ (counts : List (String × Nat)) (records : List BuildManifestChunksRecord)
      (plan : List PlanEntry) (cq : List BuildManifestChunksRecord),
    buildQueues counts records = some (plan, cq) →
    cq = records ∧
      plan.map (fun e => (e.id, e.sha)) = records.map (fun r => (r.id, r.sha)) := by
  intro counts records
  induction records generalizing counts with
  | nil =>
    intro plan cq h
    unfold buildQueues at h
    cases h
    exact ⟨rfl, rfl⟩
  | cons r rs ih =>
    intro plan cq h
    unfold buildQueues at h
    rcases hc : (counts.find? fun p => p.1 == r.file_path).map (fun p => p.2) with
      _ | cnt <;> rw [hc] at h <;> dsimp only at h
    · cases h
    · rcases hq : buildQueues
          (if (cnt - 1 == r.id) = true then
            counts.filter (fun p => !(p.1 == r.file_path)) else counts) rs with
        _ | pc <;> rw [hq] at h
      · cases h
      · rcases pc with ⟨plan', cq'⟩
        cases h
        rcases ih _ plan' cq' hq with ⟨h1, h2⟩
        constructor
        · rw [h1]
        · rw [List.map_cons, h2]
          rfl

/-- Claim C6 counterexample: the channel closes (no message ever arrives)
while the write plan still holds one entry; the writer exits normally with
the plan undrained and `build_from_manifest` still reports success — there
is no Truncated failure. -/
theorem writer_truncation_counterexample :
    (writerRun [⟨['a'], 0, true⟩] []).2 = [⟨['a'], 0, true⟩] ∧
      (writerRun [⟨['a'], 0, true⟩] []).2 ≠ [] ∧
      build_from_manifest_result (writerRun [⟨['a'], 0, true⟩] []) = true := by
  refine ⟨rfl, ?_, rfl⟩
  decide

/-- Claim C6 (amended): the writer always exits normally, either with the
write plan fully drained or — when the upstream channel closes while the
plan is non-empty — by breaking out of its receive loop with the rest of
the plan untouched (a writer that receives nothing keeps the entire plan
and appends nothing). No Truncated error kind exists: the writer task
returns unit, and `build_from_manifest` reports success in both cases. -/
theorem writer_channel_close_behaviour (plan : List PlanEntry)
    (msgs : List ChunkMsg) :
    (∃ done, plan = done ++ (writerRun plan msgs).2) ∧
    writerRun plan [] = ([], plan) ∧
    build_from_manifest_result (writerRun plan msgs) = true := by
  refine ⟨writerLoop_suffix msgs plan emptyBuf [], ?_, rfl⟩
  cases plan with
  | nil => rfl
  | cons e ps => rfl

theorem find?_key_self {records : List BuildManifestChunksRecord}
    (hkeys : (records.map fun r => (r.id, r.sha)).Nodup)
    {r : BuildManifestChunksRecord} (hr : r ∈ records) :
    records.find? (fun x => (x.id, x.sha) == (r.id, r.sha)) = some r := by
  rcases hfound : records.find? (fun x => (x.id, x.sha) == (r.id, r.sha)) with _ | x
  · exfalso
    have hsome : (records.find? (fun x => (x.id, x.sha) == (r.id, r.sha))).isSome := by
      rw [List.find?_isSome]
      exact ⟨r, hr, by simp⟩
    rw [hfound] at hsome
    cases hsome
  · have hx_mem := List.mem_of_find?_eq_some hfound
    have hx_key := List.find?_some hfound
    rw [beq_iff_eq] at hx_key
    have hxr : x = r := List.inj_on_of_nodup_map hkeys hx_mem hr hx_key
    rw [hxr] at hfound
    exact hfound

/-- The payload that travels under a given buffer key, as a function of the
key: well-defined because the manifest's `(id, sha)` keys are distinct. -/
def chunkData (records : List BuildManifestChunksRecord)
    (bytesOf : BuildManifestChunksRecord → List Nat)
    (k : Nat × List Char) : String × List Nat :=
  match records.find? (fun x => (x.id, x.sha) == k) with
  | some r => (r.file_path, bytesOf r)
  | none => ("", [])

/-- Claim C2: over a successful run whose chunk manifest rows `records`
carry pairwise-distinct `(id, sha)` keys, whatever order the fetched chunks
arrive in (`msgs` is any permutation of the fetched messages), the writer's
appends are exactly one append per manifest row, in the write plan's FIFO
order — which Phase B built in chunk-manifest order — and the plan drains
completely. Consequently the content of each file F is the concatenation of
F's chunk rows' bytes in manifest order, and when F's rows carry ids
0, 1, ..., count-1 in order (the manifest invariant), its i-th appended
chunk is chunk id i, so the byte at offset k of F is the k-th byte of the
concatenation of chunks 0..count-1. -/
theorem writer_appends_follow_manifest_order
    (counts : List (String × Nat)) (records cq : List BuildManifestChunksRecord)
    (plan : List PlanEntry)
    (bytesOf : BuildManifestChunksRecord → List Nat) (msgs : List ChunkMsg)
    (hbuild : buildQueues counts records = some (plan, cq))
    (hkeys : (records.map fun r => (r.id, r.sha)).Nodup)
    (hperm : msgs.Perm (records.map fun r => ⟨r, bytesOf r⟩))
    (hasc : ∀ F ∈ records.map (fun r => r.file_path),
      (records.filter fun r => r.file_path == F).map (fun r => r.id) =
        List.range ((records.filter fun r => r.file_path == F).length)) :
    writerRun plan msgs = (records.map fun r => (r.file_path, bytesOf r), []) ∧
    (∀ F, fileContent F (writerRun plan msgs).1 =
        ((records.filter fun r => r.file_path == F).map bytesOf).flatten) ∧
    (∀ F ∈ records.map (fun r => r.file_path),
      ∀ i : Nat, ∀ hi : i < (records.filter fun r => r.file_path == F).length,
        ((records.filter fun r => r.file_path == F).get ⟨i, hi⟩).id = i) := by
  rcases buildQueues_spec counts records plan cq hbuild with ⟨_, halign⟩
  have hkeyalign : plan.map PlanEntry.key = records.map (fun r => (r.id, r.sha)) :=
    halign
  have hmain : writerRun plan msgs =
      ([] ++ plan.map (fun e => chunkData records bytesOf e.key), []) := by
    apply writerLoop_complete
    · rw [hkeyalign]
      exact hkeys
    · intro k
      left
      rfl
    · intro e he
      right
      have hek : e.key ∈ records.map (fun r => (r.id, r.sha)) := by
        rw [← hkeyalign]
        exact List.mem_map_of_mem PlanEntry.key he
      rcases List.mem_map.mp hek with ⟨r, hrmem, hrk⟩
      refine ⟨⟨r, bytesOf r⟩, ?_, hrk⟩
      rw [hperm.mem_iff]
      exact List.mem_map_of_mem (fun r => ChunkMsg.mk r (bytesOf r)) hrmem
    · intro m hm
      have hmem : m ∈ records.map fun r => ChunkMsg.mk r (bytesOf r) := by
        rw [← hperm.mem_iff]
        exact hm
      rcases List.mem_map.mp hmem with ⟨r, hrmem, hrm⟩
      rw [← hrm]
      show (r.file_path, bytesOf r) = chunkData records bytesOf (r.id, r.sha)
      unfold chunkData
      rw [find?_key_self hkeys hrmem]
    · intro e rs _
      rfl
  have happ : plan.map (fun e => chunkData records bytesOf e.key) =
      records.map fun r => (r.file_path, bytesOf r) := by
    have h1 : plan.map (fun e => chunkData records bytesOf e.key) =
        (plan.map PlanEntry.key).map (chunkData records bytesOf) := by
      rw [List.map_map]
      rfl
    rw [h1, hkeyalign, List.map_map]
    apply List.map_congr_left
    intro r hrmem
    show chunkData records bytesOf (r.id, r.sha) = (r.file_path, bytesOf r)
    unfold chunkData
    rw [find?_key_self hkeys hrmem]
  have hrun : writerRun plan msgs =
      (records.map fun r => (r.file_path, bytesOf r), []) := by
    rw [hmain, List.nil_append, happ]
  refine ⟨hrun, ?_, ?_⟩
  · intro F
    rw [hrun]
    unfold fileContent
    rw [List.filter_map, List.map_map]
    rfl
  · intro F hF i hi
    have h := hasc F hF
    have hlen : i < ((records.filter fun r => r.file_path == F).map
        (fun r => r.id)).length := by
      rw [List.length_map]
      exact hi
    have hget := List.get_of_eq h ⟨i, hlen⟩
    rw [List.get_map] at hget
    rw [hget]
    simp

/-- Witness for C2: a two-file manifest — file "a" with chunks 0 and 1
(whose shas are the same, exercising the composite `(id, sha)` buffer key)
and file "b" with one chunk — delivered out of order (chunk 1 of "a"
first); the writer still appends in chunk-manifest order and file "a"'s
content is chunk 0 then chunk 1. -/
theorem writer_appends_follow_manifest_order_witness :
    writerRun [⟨['x'], 0, false⟩, ⟨['x'], 1, true⟩, ⟨['y'], 0, true⟩]
        [⟨⟨1, "a", ['x']⟩, [3]⟩, ⟨⟨0, "a", ['x']⟩, [1]⟩, ⟨⟨0, "b", ['y']⟩, [1]⟩] =
      ([("a", [1]), ("a", [3]), ("b", [1])], []) ∧
    fileContent "a"
        (writerRun [⟨['x'], 0, false⟩, ⟨['x'], 1, true⟩, ⟨['y'], 0, true⟩]
          [⟨⟨1, "a", ['x']⟩, [3]⟩, ⟨⟨0, "a", ['x']⟩, [1]⟩,
            ⟨⟨0, "b", ['y']⟩, [1]⟩]).1 = [1, 3] := by
  have h := writer_appends_follow_manifest_order
    [("a", 2), ("b", 1)]
    [⟨0, "a", ['x']⟩, ⟨1, "a", ['x']⟩, ⟨0, "b", ['y']⟩]
    [⟨0, "a", ['x']⟩, ⟨1, "a", ['x']⟩, ⟨0, "b", ['y']⟩]
    [⟨['x'], 0, false⟩, ⟨['x'], 1, true⟩, ⟨['y'], 0, true⟩]
    (fun r => [r.id * 2 + 1])
    [⟨⟨1, "a", ['x']⟩, [3]⟩, ⟨⟨0, "a", ['x']⟩, [1]⟩, ⟨⟨0, "b", ['y']⟩, [1]⟩]
    (by decide) (by decide) (by decide) (by decide)
  refine ⟨h.1, ?_⟩
  rw [h.2.1 "a"]
  decide

/-- The fate of one `build_from_manifest` call. -/
inductive PipelineOutcome
  | returns (success : Bool)
  | hangs
deriving DecidableEq, Repr

/-- The fate of a `build_from_manifest` run, as a function of the write
plan and the finite sequence of messages the fetch tasks ever forward. The
driver keeps its channel sender `tx` alive while it awaits the writer
(lines 410, 535), so the channel never closes during a run: if the plan is
still non-empty after the last forwarded message, the writer blocks in
`rx.recv()` forever and the call never returns. If the writer drains the
plan it exits, and the call returns `Ok(true)` regardless of what the fetch
tasks reported (their booleans are discarded with their join handles). -/
def pipelineOutcome (plan : List PlanEntry) (msgs : List ChunkMsg) :
    PipelineOutcome :=
  if (writerRun plan msgs).2 = [] then
    PipelineOutcome.returns (build_from_manifest_result (writerRun plan msgs))
  else PipelineOutcome.hangs

/-- The messages the fetch tasks forward (in manifest order here; the claim
checked below is order-independent): a chunk whose verification fails is
never sent (the task returns `false`, which nothing reads). -/
def forwardedMsgs (H : List Nat → List Char) (skip_verify : Bool)
    (records : List BuildManifestChunksRecord)
    (bytesOf : BuildManifestChunksRecord → List Nat) : List ChunkMsg :=
  (records.filter fun r =>
      fetchTaskOutcome H skip_verify r (bytesOf r) != FetchOutcome.rejected).map
    fun r => ⟨r, bytesOf r⟩

/-- Claim C1 (what the code actually does): `build_from_manifest` can never
report failure — every terminating run returns success, whether or not all
verifications passed — and on the concrete corrupted-chunk input (one chunk
whose fetched bytes hash to "hx" while the sha's trailing segment is "h")
the fetch task rejects the chunk, nothing is forwarded, and the run hangs
instead of returning ChunkCorrupted. (The InstallRecord insertion in
main.rs therefore never runs for this input, but only because the call
never returns.) -/
theorem corrupted_chunk_run_never_fails :
    (∀ plan msgs, pipelineOutcome plan msgs ≠ PipelineOutcome.returns false) ∧
    fetchTaskOutcome (fun _ => ['h', 'x']) false
        ⟨0, "a.txt", ['f', '_', '0', '_', 'h']⟩ [1, 2, 3] =
      FetchOutcome.rejected ∧
    forwardedMsgs (fun _ => ['h', 'x']) false
        [⟨0, "a.txt", ['f', '_', '0', '_', 'h']⟩] (fun _ => [1, 2, 3]) = [] ∧
    pipelineOutcome [⟨['f', '_', '0', '_', 'h'], 0, true⟩]
        (forwardedMsgs (fun _ => ['h', 'x']) false
          [⟨0, "a.txt", ['f', '_', '0', '_', 'h']⟩] (fun _ => [1, 2, 3])) =
      PipelineOutcome.hangs := by
  refine ⟨?_, by decide, by decide, by decide⟩
  intro plan msgs
  unfold pipelineOutcome
  split
  · intro h
    cases h
  · intro h
    cases h

/-! ## The memory bound
(src/helpers.rs lines 483-531: `max_chunks_in_memory`, the two semaphores
and the fetch tasks; lines 448-455: `drop(permit)` after `append_chunk`.)

The concurrent permit discipline is embedded as a labelled transition
system. One transition corresponds to one of the code's events for one
chunk: `acquire` is the driver's `mem_semaphore.acquire_owned().await`
(line 488), which can only fire while the semaphore has a free permit and
happens before the fetch task for that chunk is spawned; `fill` is the
completion of `download_chunk` (line 499), allocating that chunk's byte
buffer — at most MAX_CHUNK_SIZE bytes — while its permit is held; `consume`
is the deallocation of the buffer (the writer's `append_chunk` moving the
bytes out at line 451, or the fetch task dropping a rejected chunk);
`release` is `drop(permit)` (line 454 after the append, or the end of a
rejecting task), which happens only after that chunk's buffer is gone —
the permit travels with the buffered chunk and outlives it. -/

/-- `MAX_CHUNK_SIZE` from src/constants.rs: 1 MiB. -/
def MAX_CHUNK_SIZE : Nat := 1048576

/-- `max_chunks_in_memory = install_opts.max_memory_usage / *MAX_CHUNK_SIZE`
(line 484), the number of permits of the memory semaphore. -/
def max_chunks_in_memory (max_memory_usage : Nat) : Nat :=
  max_memory_usage / MAX_CHUNK_SIZE

/-- A snapshot of the memory discipline: free permits of the memory
semaphore, the chunks currently holding a permit, and the resident chunk
buffers as (chunk, buffer size) pairs. -/
structure MemState where
  free : Nat
  holding : List Nat
  resident : List (Nat × Nat)
deriving DecidableEq, Repr

def initMemState (maxChunks : Nat) : MemState :=
  ⟨maxChunks, [], []⟩

/-- One event of the permit discipline (see the section comment). -/
inductive MemStep (maxChunkSize : Nat) : MemState → MemState → Prop
  | acquire (c f : Nat) (h : List Nat) (r : List (Nat × Nat)) :
      c ∉ h → MemStep maxChunkSize ⟨f + 1, h, r⟩ ⟨f, c :: h, r⟩
  | fill (c sz f : Nat) (h : List Nat) (r : List (Nat × Nat)) :
      c ∈ h → c ∉ r.map Prod.fst → sz ≤ maxChunkSize →
      MemStep maxChunkSize ⟨f, h, r⟩ ⟨f, h, (c, sz) :: r⟩
  | consume (c sz f : Nat) (h : List Nat) (r : List (Nat × Nat)) :
      MemStep maxChunkSize ⟨f, h, r⟩ ⟨f, h, r.erase (c, sz)⟩
  | release (c f : Nat) (h : List Nat) (r : List (Nat × Nat)) :
      c ∈ h → c ∉ r.map Prod.fst →
      MemStep maxChunkSize ⟨f, h, r⟩ ⟨f + 1, h.erase c, r⟩

/-- The states a run can reach from the initial semaphore state. -/
inductive MemReachable (maxChunks maxChunkSize : Nat) : MemState → Prop
  | init : MemReachable maxChunks maxChunkSize (initMemState maxChunks)
  | step {s t : MemState} : MemReachable maxChunks maxChunkSize s →
      MemStep maxChunkSize s t → MemReachable maxChunks maxChunkSize t

/-- The inductive invariant: permits are conserved, each buffer's chunk
holds a permit, and buffers are bounded by the chunk size limit. -/
def MemInv (maxChunks maxChunkSize : Nat) (s : MemState) : Prop :=
  s.free + s.holding.length = maxChunks ∧
  s.holding.Nodup ∧
  (s.resident.map Prod.fst).Nodup ∧
  (∀ c ∈ s.resident.map Prod.fst, c ∈ s.holding) ∧
  (∀ p ∈ s.resident, p.2 ≤ maxChunkSize)

theorem memInv_init (maxChunks maxChunkSize : Nat) :
    MemInv maxChunks maxChunkSize (initMemState maxChunks) := by
  refine ⟨by simp [initMemState], by simp [initMemState], by simp [initMemState],
    ?_, ?_⟩ <;> simp [initMemState]

theorem memInv_step {maxChunks maxChunkSize : Nat} {s t : MemState}
    (hs : MemInv maxChunks maxChunkSize s) (hstep : MemStep maxChunkSize s t) :
    MemInv maxChunks maxChunkSize t := by
  rcases hs with ⟨hcount, hndh, hndr, hsub, hsz⟩
  cases hstep with
  | acquire c f h r hc =>
    refine ⟨by simp at hcount ⊢; omega, List.nodup_cons.mpr ⟨hc, hndh⟩, hndr, ?_, hsz⟩
    intro q hq
    exact List.mem_cons_of_mem c (hsub q hq)
  | fill c sz f h r hch hcr hszle =>
    refine ⟨hcount, hndh, ?_, ?_, ?_⟩
    · rw [List.map_cons]
      exact List.nodup_cons.mpr ⟨hcr, hndr⟩
    · intro q hq
      rw [List.map_cons, List.mem_cons] at hq
      rcases hq with rfl | hq
      · exact hch
      · exact hsub q hq
    · intro p hp
      rcases List.mem_cons.mp hp with rfl | hp
      · exact hszle
      · exact hsz p hp
  | consume c sz f h r =>
    have hsubl : (r.erase (c, sz)).Sublist r := List.erase_sublist _ _
    refine ⟨hcount, hndh, ?_, ?_, ?_⟩
    · exact (hsubl.map Prod.fst).nodup hndr
    · intro q hq
      rcases List.mem_map.mp hq with ⟨p, hp, hpq⟩
      exact hsub q (List.mem_map.mpr ⟨p, hsubl.mem hp, hpq⟩)
    · intro p hp
      exact hsz p (hsubl.mem hp)
  | release c f h r hch hcr =>
    refine ⟨?_, hndh.erase c, hndr, ?_, hsz⟩
    · have hlen : (h.erase c).length = h.length - 1 := List.length_erase_of_mem hch
      have hpos : 0 < h.length := List.length_pos.mpr (List.ne_nil_of_mem hch)
      simp only [MemState.free, MemState.holding] at hcount ⊢
      rw [hlen]
      omega
    · intro q hq
      have hqh := hsub q hq
      have hqc : q ≠ c := by
        intro hqc
        rw [hqc] at hq
        exact hcr hq
      exact (List.mem_erase_of_ne hqc).mpr hqh

theorem memReachable_inv {maxChunks maxChunkSize : Nat} {s : MemState}
    (h : MemReachable maxChunks maxChunkSize s) :
    MemInv maxChunks maxChunkSize s := by
  induction h with
  | init => exact memInv_init maxChunks maxChunkSize
  | step _ hstep ih => exact memInv_step ih hstep

/-- The total bytes of resident chunk buffers in a state. -/
def residentBytes (s : MemState) : Nat :=
  (s.resident.map Prod.snd).sum

/-- Claim C3: in every state a run can reach, the number of chunk buffers
resident in memory never exceeds `max_memory_usage / MAX_CHUNK_SIZE` (the
memory semaphore's permit count): the driver takes one permit per chunk
before spawning its fetch task, the permit travels with the buffered chunk,
and it is released only after the chunk's buffer is gone (the writer's
append, not the fetch's completion). Peak resident chunk bytes are
therefore at most max_memory_usage — in particular at most
max_memory_usage + MAX_CHUNK_SIZE as the claim allows. -/
theorem memory_bound (max_memory_usage : Nat) (s : MemState)
    (h : MemReachable (max_chunks_in_memory max_memory_usage) MAX_CHUNK_SIZE s) :
    s.resident.length ≤ max_chunks_in_memory max_memory_usage ∧
    residentBytes s ≤ max_memory_usage ∧
    residentBytes s ≤ max_memory_usage + MAX_CHUNK_SIZE := by
  rcases memReachable_inv h with ⟨hcount, _, hndr, hsub, hsz⟩
  have hlen : s.resident.length ≤ max_chunks_in_memory max_memory_usage := by
    have h1 : (s.resident.map Prod.fst).length ≤ s.holding.length :=
      (hndr.subperm hsub).length_le
    rw [List.length_map] at h1
    omega
  refine ⟨hlen, ?_, ?_⟩
  · have hsum : residentBytes s ≤ (s.resident.map Prod.snd).length * MAX_CHUNK_SIZE := by
      unfold residentBytes
      have := List.sum_le_card_nsmul (s.resident.map Prod.snd) MAX_CHUNK_SIZE ?_
      · simpa using this
      · intro x hx
        rcases List.mem_map.mp hx with ⟨p, hp, hpx⟩
        rw [← hpx]
        exact hsz p hp
    rw [List.length_map] at hsum
    have hmul : s.resident.length * MAX_CHUNK_SIZE ≤
        max_chunks_in_memory max_memory_usage * MAX_CHUNK_SIZE :=
      Nat.mul_le_mul_right _ hlen
    have hdiv : max_chunks_in_memory max_memory_usage * MAX_CHUNK_SIZE ≤
        max_memory_usage := Nat.div_mul_le_self _ _
    omega
  · have : residentBytes s ≤ max_memory_usage := by
      have hsum : residentBytes s ≤ (s.resident.map Prod.snd).length * MAX_CHUNK_SIZE := by
        unfold residentBytes
        have := List.sum_le_card_nsmul (s.resident.map Prod.snd) MAX_CHUNK_SIZE ?_
        · simpa using this
        · intro x hx
          rcases List.mem_map.mp hx with ⟨p, hp, hpx⟩
          rw [← hpx]
          exact hsz p hp
      rw [List.length_map] at hsum
      have hmul : s.resident.length * MAX_CHUNK_SIZE ≤
          max_chunks_in_memory max_memory_usage * MAX_CHUNK_SIZE :=
        Nat.mul_le_mul_right _ hlen
      have hdiv : max_chunks_in_memory max_memory_usage * MAX_CHUNK_SIZE ≤
          max_memory_usage := Nat.div_mul_le_self _ _
      omega
    omega

/-- Witness for C3: scenario 6 of the specification scaled down —
max_memory_usage = 2·MAX_CHUNK_SIZE gives two permits; after acquiring both
permits and filling both buffers, the reachable state holds two resident
buffers and the bound holds. -/
theorem memory_bound_witness :
    MemReachable (max_chunks_in_memory (2 * MAX_CHUNK_SIZE)) MAX_CHUNK_SIZE
        ⟨0, [1, 0], [(1, 7), (0, 5)]⟩ ∧
    (⟨0, [1, 0], [(1, 7), (0, 5)]⟩ : MemState).resident.length ≤
        max_chunks_in_memory (2 * MAX_CHUNK_SIZE) ∧
    residentBytes ⟨0, [1, 0], [(1, 7), (0, 5)]⟩ ≤ 2 * MAX_CHUNK_SIZE := by
  have h0 : max_chunks_in_memory (2 * MAX_CHUNK_SIZE) = 2 := by decide
  have hreach : MemReachable (max_chunks_in_memory (2 * MAX_CHUNK_SIZE))
      MAX_CHUNK_SIZE ⟨0, [1, 0], [(1, 7), (0, 5)]⟩ := by
    rw [h0]
    have r0 : MemReachable 2 MAX_CHUNK_SIZE ⟨2, [], []⟩ := MemReachable.init
    have r1 := MemReachable.step r0 (MemStep.acquire 0 1 [] [] (by decide))
    have r2 := MemReachable.step r1
      (MemStep.fill 0 5 1 [0] [] (by decide) (by decide) (by decide))
    have r3 := MemReachable.step r2 (MemStep.acquire 1 0 [0] [(0, 5)] (by decide))
    exact MemReachable.step r3
      (MemStep.fill 1 7 0 [1, 0] [(0, 5)] (by decide) (by decide) (by decide))
  exact ⟨hreach, (memory_bound (2 * MAX_CHUNK_SIZE) _ hreach).1,
    (memory_bound (2 * MAX_CHUNK_SIZE) _ hreach).2.1⟩

/-! ## DeltaComputer: the chunk delta
(src/helpers.rs, `read_or_generate_delta_chunks_manifest`, lines 199-269;
the pure computation between the cache read and the cache write.) -/

/-- The inner `while current_file.is_directory() || current_file.is_empty()`
loop: advance the delta-manifest cursor past directory and empty entries;
when the iterator is exhausted (`None => break`) the cursor keeps its last
value. -/
def skipDirs : BuildManifestRecord → List BuildManifestRecord →
    BuildManifestRecord × List BuildManifestRecord
  | cur, [] => (cur, [])
  | cur, f :: fs =>
    if cur.is_directory || cur.isEmptyFile then skipDirs f fs else (cur, f :: fs)

/-- The `for record in new_manifest_byte_records` loop: `cur` is
`current_file`, `rest` the not-yet-consumed delta rows. A Removed cursor
breaks the loop; a chunk row is emitted exactly when its file_path equals
the (advanced) cursor's file_name; after emitting the chunk whose
`id + 1` equals the cursor's chunk count the cursor advances, and if the
delta iterator is exhausted the loop breaks. -/
def chunkDeltaLoop : BuildManifestRecord → List BuildManifestRecord →
    List BuildManifestChunksRecord → List BuildManifestChunksRecord
  | _, _, [] => []
  | cur, rest, record :: rs =>
    if cur.tag = some ChangeTag.Removed then []
    else
      let s := skipDirs cur rest
      if record.file_path ≠ s.1.file_name then chunkDeltaLoop s.1 s.2 rs
      else
        record ::
          (if record.id + 1 = s.1.chunks then
            match s.2 with
            | f :: fs => chunkDeltaLoop f fs rs
            | [] => []
          else chunkDeltaLoop s.1 s.2 rs)

/-- The chunks-delta computation of `read_or_generate_delta_chunks_manifest`:
`none` models the `.expect("There were no changes in this update?")` panic
on an empty delta manifest. -/
def generate_delta_chunks_manifest (delta : List BuildManifestRecord)
    (new_cm : List BuildManifestChunksRecord) :
    Option (List BuildManifestChunksRecord) :=
  match delta with
  | [] => none
  | d :: ds => some (chunkDeltaLoop d ds new_cm)

/-- A delta row that the cursor can consume chunks for: neither a directory
nor an empty file. -/
def chunkBearing (r : BuildManifestRecord) : Bool :=
  !(r.is_directory || r.isEmptyFile)

/-- The chunk-manifest block of one file: rows with ids 0..chunks-1 in
order (chunk-manifest invariant), with arbitrary per-chunk shas. -/
def chunkRowsFor (shaOf : String → Nat → List Char)
    (f : BuildManifestRecord) : List BuildManifestChunksRecord :=
  (List.range f.chunks).map fun i => ⟨i, f.file_name, shaOf f.file_name i⟩

/-- Claim C5 counterexample: for an arbitrary new chunk manifest the
computation does NOT emit every chunk row of an Added or Modified file:
with delta rows "a" then "b" (both Added, one chunk each) and a chunk
manifest listing b's chunk before a's, the cursor sits at "a", skips b's
chunk (which belongs to an Added file and should be emitted per the
claim), and only a's chunk comes out. -/
theorem chunk_delta_counterexample :
    generate_delta_chunks_manifest
        [{ size_in_bytes := 1, chunks := 1, sha := "sa", flags := 0,
           file_name := "a", tag := some ChangeTag.Added },
         { size_in_bytes := 1, chunks := 1, sha := "sb", flags := 0,
           file_name := "b", tag := some ChangeTag.Added }]
        [⟨0, "b", ['y']⟩, ⟨0, "a", ['x']⟩] = some [⟨0, "a", ['x']⟩] ∧
    generate_delta_chunks_manifest
        [{ size_in_bytes := 1, chunks := 1, sha := "sa", flags := 0,
           file_name := "a", tag := some ChangeTag.Added },
         { size_in_bytes := 1, chunks := 1, sha := "sb", flags := 0,
           file_name := "b", tag := some ChangeTag.Added }]
        [⟨0, "b", ['y']⟩, ⟨0, "a", ['x']⟩] ≠
      some [⟨0, "b", ['y']⟩, ⟨0, "a", ['x']⟩] := by
  constructor
  · decide
  · decide

theorem skipDirs_cons_step (cur f : BuildManifestRecord)
    (fs : List BuildManifestRecord) :
    skipDirs cur (f :: fs) =
      if cur.is_directory || cur.isEmptyFile then skipDirs f fs
      else (cur, f :: fs) := rfl

theorem skipDirs_idem {w : BuildManifestRecord}
    (hcb : (w.is_directory || w.isEmptyFile) = false) :
    ∀ rest2, skipDirs w rest2 = (w, rest2) := by
  intro rest2
  cases rest2 with
  | nil => rfl
  | cons f fs =>
    rw [skipDirs_cons_step, hcb]
    simp

theorem skipDirs_through :
    ∀ (P : List BuildManifestRecord) (x : BuildManifestRecord)
      (T : List BuildManifestRecord) (cur : BuildManifestRecord)
      (rest : List BuildManifestRecord),
    cur :: rest = P ++ x :: T →
    (∀ p ∈ P, (p.is_directory || p.isEmptyFile) = true) →
    (x.is_directory || x.isEmptyFile) = false →
    skipDirs cur rest = (x, T) := by
  intro P
  induction P with
  | nil =>
    intro x T cur rest heq hP hx
    rw [List.nil_append] at heq
    cases heq
    exact skipDirs_idem hx T
  | cons p P' ih =>
    intro x T cur rest heq hP hx
    rw [List.cons_append] at heq
    cases heq
    have hp : (p.is_directory || p.isEmptyFile) = true :=
      hP p (List.mem_cons_self p P')
    cases hrest : P' ++ x :: T with
    | nil => cases P' <;> cases hrest
    | cons f fs =>
      rw [skipDirs_cons_step, hp]
      simp only [if_true]
      exact ih x T f fs hrest.symm (fun q hq => hP q (List.mem_cons_of_mem p hq)) hx

theorem skipDirs_suffix :
    ∀ (rest : List BuildManifestRecord) (cur : BuildManifestRecord),
    ∃ pre, cur :: rest = pre ++ (skipDirs cur rest).1 :: (skipDirs cur rest).2 := by
  intro rest
  induction rest with
  | nil =>
    intro cur
    exact ⟨[], rfl⟩
  | cons f fs ih =>
    intro cur
    by_cases hc : (cur.is_directory || cur.isEmptyFile) = true
    · have hred : skipDirs cur (f :: fs) = skipDirs f fs := by
        rw [skipDirs_cons_step, hc]
        simp
      rcases ih f with ⟨pre, hpre⟩
      refine ⟨cur :: pre, ?_⟩
      rw [hred, List.cons_append, ← hpre]
    · rw [Bool.not_eq_true] at hc
      rw [skipDirs_idem hc]
      exact ⟨[], rfl⟩

theorem suffix_of_append {α : Type} :
    ∀ (A R suf : List α), suf <:+ (A ++ R) →
    (∃ A2, A2 <:+ A ∧ suf = A2 ++ R) ∨ suf <:+ R := by
  intro A
  induction A with
  | nil =>
    intro R suf h
    right
    exact h
  | cons a A' ih =>
    intro R suf h
    rcases h with ⟨pre, hpre⟩
    cases pre with
    | nil =>
      left
      refine ⟨a :: A', List.suffix_refl _, ?_⟩
      rw [List.nil_append] at hpre
      rw [← hpre]
    | cons p pre' =>
      rw [List.cons_append, List.cons_append] at hpre
      have htail : pre' ++ suf = A' ++ R := by
        injection hpre
      rcases ih R suf ⟨pre', htail⟩ with ⟨A2, hA2, hsuf⟩ | hR
      · left
        exact ⟨A2, hA2.trans (List.suffix_cons a A'), hsuf⟩
      · right
        exact hR

theorem chunkDeltaLoop_cons_step (cur : BuildManifestRecord)
    (rest : List BuildManifestRecord) (record : BuildManifestChunksRecord)
    (rs : List BuildManifestChunksRecord) :
    chunkDeltaLoop cur rest (record :: rs) =
      if cur.tag = some ChangeTag.Removed then []
      else
        if record.file_path ≠ (skipDirs cur rest).1.file_name then
          chunkDeltaLoop (skipDirs cur rest).1 (skipDirs cur rest).2 rs
        else
          record ::
            (if record.id + 1 = (skipDirs cur rest).1.chunks then
              match (skipDirs cur rest).2 with
              | f :: fs => chunkDeltaLoop f fs rs
              | [] => []
            else chunkDeltaLoop (skipDirs cur rest).1 (skipDirs cur rest).2 rs) :=
  rfl

theorem chunkDeltaLoop_removed {cur : BuildManifestRecord}
    (h : cur.tag = some ChangeTag.Removed) (rest : List BuildManifestRecord)
    (cms : List BuildManifestChunksRecord) (c : BuildManifestChunksRecord)
    (cs : List BuildManifestChunksRecord) (hcms : cms = c :: cs) :
    chunkDeltaLoop cur rest cms = [] := by
  rw [hcms, chunkDeltaLoop_cons_step, if_pos h]

theorem chunkDeltaLoop_normalize {cur cur2 : BuildManifestRecord}
    {rest rest2 : List BuildManifestRecord}
    (htag : ¬ cur.tag = some ChangeTag.Removed)
    (hskip : skipDirs cur rest = (cur2, rest2))
    (hcb2 : (cur2.is_directory || cur2.isEmptyFile) = false)
    (htag2 : ¬ cur2.tag = some ChangeTag.Removed)
    (c : BuildManifestChunksRecord) (cs : List BuildManifestChunksRecord) :
    chunkDeltaLoop cur rest (c :: cs) = chunkDeltaLoop cur2 rest2 (c :: cs) := by
  rw [chunkDeltaLoop_cons_step, chunkDeltaLoop_cons_step, if_neg htag, if_neg htag2,
    hskip, skipDirs_idem hcb2 rest2]

theorem chunkDeltaLoop_skip_rows {w : BuildManifestRecord}
    {rest2 : List BuildManifestRecord}
    (hcb : (w.is_directory || w.isEmptyFile) = false)
    (htag : ¬ w.tag = some ChangeTag.Removed) :
    ∀ (rows cms : List BuildManifestChunksRecord),
    (∀ c ∈ rows, c.file_path ≠ w.file_name) →
    chunkDeltaLoop w rest2 (rows ++ cms) = chunkDeltaLoop w rest2 cms := by
  intro rows
  induction rows with
  | nil =>
    intro cms _
    rw [List.nil_append]
  | cons c rows' ih =>
    intro cms hne
    rw [List.cons_append, chunkDeltaLoop_cons_step, if_neg htag,
      skipDirs_idem hcb rest2]
    simp only
    rw [if_pos (hne c (List.mem_cons_self c rows'))]
    exact ih cms fun q hq => hne q (List.mem_cons_of_mem c hq)

theorem chunkDeltaLoop_emit_rows (shaOf : String → Nat → List Char)
    {w : BuildManifestRecord} (rest2 : List BuildManifestRecord)
    (hcb : (w.is_directory || w.isEmptyFile) = false)
    (htag : ¬ w.tag = some ChangeTag.Removed) :
    ∀ (k i : Nat), i + k = w.chunks → 1 ≤ k →
    ∀ (cms : List BuildManifestChunksRecord),
    chunkDeltaLoop w rest2
        (((List.range' i k).map fun j =>
          (⟨j, w.file_name, shaOf w.file_name j⟩ : BuildManifestChunksRecord)) ++ cms) =
      ((List.range' i k).map fun j =>
          (⟨j, w.file_name, shaOf w.file_name j⟩ : BuildManifestChunksRecord)) ++
        (match rest2 with
          | f :: fs => chunkDeltaLoop f fs cms
          | [] => []) := by
  intro k
  induction k with
  | zero =>
    intro i _ hk
    cases hk
  | succ k' ih =>
    intro i hik _ cms
    rw [List.range'_succ, List.map_cons, List.cons_append,
      chunkDeltaLoop_cons_step, if_neg htag, skipDirs_idem hcb rest2]
    simp only
    rw [if_neg (by simp)]
    cases k' with
    | zero =>
      have hi1 : i + 1 = w.chunks := hik
      rw [if_pos hi1]
      simp only [List.range', List.map_nil, List.nil_append]
      cases rest2 with
      | nil => rfl
      | cons f fs => rfl
    | succ k'' =>
      have hi1 : ¬ (i + 1 = w.chunks) := by omega
      rw [if_neg hi1]
      have := ih (i + 1) (by omega) (by omega) cms
      rw [this]
      rfl

theorem chunkDeltaLoop_skips_all :
    ∀ (cms : List BuildManifestChunksRecord) (cur : BuildManifestRecord)
      (rest A R : List BuildManifestRecord),
    cur :: rest = A ++ R →
    (∀ r ∈ A, ¬ r.tag = some ChangeTag.Removed) →
    (∀ r ∈ R, r.tag = some ChangeTag.Removed) →
    (∀ r ∈ A, r.file_name ∉ cms.map fun c => c.file_path) →
    (∀ r ∈ R, r.file_name ∉ cms.map fun c => c.file_path) →
    chunkDeltaLoop cur rest cms = [] := by
  intro cms
  induction cms with
  | nil =>
    intro cur rest A R _ _ _ _ _
    rfl
  | cons c cs ih =>
    intro cur rest A R hsplit hA hR hAn hRn
    cases A with
    | nil =>
      have hcur : cur.tag = some ChangeTag.Removed := by
        rw [List.nil_append] at hsplit
        cases R with
        | nil => cases hsplit
        | cons r0 rs =>
          have h1 : cur = r0 := by injection hsplit
          rw [h1]
          exact hR r0 (List.mem_cons_self r0 rs)
      exact chunkDeltaLoop_removed hcur rest _ c cs rfl
    | cons a A' =>
      have hcurA : cur = a := by
        rw [List.cons_append] at hsplit
        injection hsplit
      have htagcur : ¬ cur.tag = some ChangeTag.Removed := by
        rw [hcurA]
        exact hA a (List.mem_cons_self a A')
      rcases skipDirs_suffix rest cur with ⟨pre, hpre⟩
      have hsuf : ((skipDirs cur rest).1 :: (skipDirs cur rest).2) <:+ ((a :: A') ++ R) := by
        refine ⟨pre, ?_⟩
        rw [← hpre]
        exact hsplit
      have hmem1 : (skipDirs cur rest).1 ∈ (a :: A') ++ R := by
        have : (skipDirs cur rest).1 ∈
            (skipDirs cur rest).1 :: (skipDirs cur rest).2 :=
          List.mem_cons_self _ _
        exact hsuf.subset this
      have hname1 : (skipDirs cur rest).1.file_name ∉
          (c :: cs).map fun q => q.file_path := by
        rcases List.mem_append.mp hmem1 with h | h
        · exact hAn _ h
        · exact hRn _ h
      have hnepath : c.file_path ≠ (skipDirs cur rest).1.file_name := by
        intro hcp
        apply hname1
        rw [← hcp]
        exact List.mem_cons_self _ _
      rw [chunkDeltaLoop_cons_step, if_neg htagcur, if_pos hnepath]
      rcases suffix_of_append (a :: A') R _ hsuf with ⟨A2, hA2suf, heq2⟩ | hRsuf
      · refine ih (skipDirs cur rest).1 (skipDirs cur rest).2 A2 R heq2
          (fun r hr => hA r (hA2suf.subset hr))
          hR
          (fun r hr => fun hm =>
            hAn r (hA2suf.subset hr) (List.mem_cons_of_mem _ hm))
          (fun r hr => fun hm => hRn r hr (List.mem_cons_of_mem _ hm))
      · refine ih (skipDirs cur rest).1 (skipDirs cur rest).2 []
          ((skipDirs cur rest).1 :: (skipDirs cur rest).2) rfl
          (by intro r hr; cases hr)
          (fun r hr => hR r (hRsuf.subset hr))
          (by intro r hr; cases hr)
          (fun r hr => fun hm => hRn r (hRsuf.subset hr) (List.mem_cons_of_mem _ hm))

theorem filter_eq_cons_split {α : Type} (p : α → Bool) :
    ∀ (l : List α) (a : α) (as : List α), l.filter p = a :: as →
    ∃ l₁ l₂, l = l₁ ++ a :: l₂ ∧ (∀ x ∈ l₁, p x = false) ∧ p a = true ∧
      l₂.filter p = as := by
  intro l
  induction l with
  | nil =>
    intro a as h
    cases h
  | cons x xs ih =>
    intro a as h
    rcases hp : p x with _ | _
    · rw [List.filter_cons, hp] at h
      rw [if_neg Bool.false_ne_true] at h
      rcases ih a as h with ⟨l₁, l₂, hl, h1, h2, h3⟩
      exact ⟨x :: l₁, l₂, by rw [hl]; rfl,
        fun q hq => by
          rcases List.mem_cons.mp hq with rfl | hq2
          · exact hp
          · exact h1 q hq2, h2, h3⟩
    · rw [List.filter_cons, hp] at h
      rw [if_pos rfl] at h
      have hxa : x = a := by injection h
      have has : xs.filter p = as := by injection h
      refine ⟨[], xs, ?_, ?_, hxa ▸ hp, has⟩
      · rw [hxa]
        rfl
      · intro q hq
        cases hq

theorem sublist_cons_cases {α : Type} {a b : α} {l₁ l₂ : List α}
    (h : (a :: l₁).Sublist (b :: l₂)) :
    (a :: l₁).Sublist l₂ ∨ (a = b ∧ l₁.Sublist l₂) := by
  cases h with
  | cons _ h2 =>
    left
    exact h2
  | cons₂ _ h2 =>
    right
    exact ⟨rfl, h2⟩

theorem names_sub_of_pairs_sub {l₁ l₂ : List BuildManifestRecord}
    (h : (l₁.map fun r => (r.file_name, r.chunks)).Sublist
      (l₂.map fun f => (f.file_name, f.chunks))) :
    ∀ r ∈ l₁, r.file_name ∈ l₂.map fun f => f.file_name := by
  intro r hr
  have hmem : (r.file_name, r.chunks) ∈ l₂.map fun f => (f.file_name, f.chunks) :=
    h.subset (List.mem_map_of_mem _ hr)
  rcases List.mem_map.mp hmem with ⟨f, hf, hpair⟩
  have hn : f.file_name = r.file_name := congrArg Prod.fst hpair
  rw [← hn]
  exact List.mem_map_of_mem _ hf

theorem cb_false_iff (r : BuildManifestRecord) :
    chunkBearing r = false ↔ (r.is_directory || r.isEmptyFile) = true := by
  unfold chunkBearing
  cases r.is_directory || r.isEmptyFile <;> simp

theorem cb_true_iff (r : BuildManifestRecord) :
    chunkBearing r = true ↔ (r.is_directory || r.isEmptyFile) = false := by
  unfold chunkBearing
  cases r.is_directory || r.isEmptyFile <;> simp

theorem blk_path (shaOf : String → Nat → List Char) (f : BuildManifestRecord) :
    ∀ c ∈ chunkRowsFor shaOf f, c.file_path = f.file_name := by
  intro c hc
  unfold chunkRowsFor at hc
  rcases List.mem_map.mp hc with ⟨i, _, hrow⟩
  rw [← hrow]

theorem flatten_paths_sub (shaOf : String → Nat → List Char)
    (gs : List BuildManifestRecord) :
    ∀ c ∈ (gs.map (chunkRowsFor shaOf)).flatten,
      c.file_path ∈ gs.map fun f => f.file_name := by
  intro c hc
  rcases List.mem_flatten.mp hc with ⟨blkl, hblk, hcblk⟩
  rcases List.mem_map.mp hblk with ⟨f, hf, hfb⟩
  rw [← hfb] at hcblk
  rw [blk_path shaOf f c hcblk]
  exact List.mem_map_of_mem _ hf

theorem chunkDeltaLoop_emit_block_nil (shaOf : String → Nat → List Char)
    {w : BuildManifestRecord}
    (hcb : (w.is_directory || w.isEmptyFile) = false)
    (htag : ¬ w.tag = some ChangeTag.Removed)
    (hk : 1 ≤ w.chunks) (cms : List BuildManifestChunksRecord) :
    chunkDeltaLoop w []
        (((List.range' 0 w.chunks).map fun j =>
          (⟨j, w.file_name, shaOf w.file_name j⟩ : BuildManifestChunksRecord)) ++ cms) =
      (List.range' 0 w.chunks).map fun j =>
        (⟨j, w.file_name, shaOf w.file_name j⟩ : BuildManifestChunksRecord) := by
  rw [chunkDeltaLoop_emit_rows shaOf [] hcb htag w.chunks 0 (Nat.zero_add _) hk cms]
  simp

theorem chunkDeltaLoop_emit_block_cons (shaOf : String → Nat → List Char)
    {w : BuildManifestRecord} (f : BuildManifestRecord)
    (fs : List BuildManifestRecord)
    (hcb : (w.is_directory || w.isEmptyFile) = false)
    (htag : ¬ w.tag = some ChangeTag.Removed)
    (hk : 1 ≤ w.chunks) (cms : List BuildManifestChunksRecord) :
    chunkDeltaLoop w (f :: fs)
        (((List.range' 0 w.chunks).map fun j =>
          (⟨j, w.file_name, shaOf w.file_name j⟩ : BuildManifestChunksRecord)) ++ cms) =
      ((List.range' 0 w.chunks).map fun j =>
        (⟨j, w.file_name, shaOf w.file_name j⟩ : BuildManifestChunksRecord)) ++
        chunkDeltaLoop f fs cms := by
  rw [chunkDeltaLoop_emit_rows shaOf (f :: fs) hcb htag w.chunks 0 (Nat.zero_add _) hk cms]

theorem chunkDeltaLoop_spec (shaOf : String → Nat → List Char) :
    ∀ (gs : List BuildManifestRecord) (cur : BuildManifestRecord)
      (rest A R : List BuildManifestRecord),
    cur :: rest = A ++ R →
    (∀ r ∈ A, ¬ r.tag = some ChangeTag.Removed) →
    (∀ r ∈ R, r.tag = some ChangeTag.Removed) →
    ((A.filter chunkBearing).map fun r => (r.file_name, r.chunks)).Sublist
      (gs.map fun f => (f.file_name, f.chunks)) →
    (∀ r ∈ A, chunkBearing r = false →
      r.file_name ∉ gs.map fun f => f.file_name) →
    (∀ r ∈ R, r.file_name ∉ gs.map fun f => f.file_name) →
    (gs.map fun f => f.file_name).Nodup →
    (∀ f ∈ gs, f.is_directory = false ∧ f.isEmptyFile = false ∧ 1 ≤ f.chunks) →
    chunkDeltaLoop cur rest ((gs.map (chunkRowsFor shaOf)).flatten) =
      ((gs.map (chunkRowsFor shaOf)).flatten).filter
        (fun c => ((A.filter chunkBearing).map fun r => r.file_name).contains
          c.file_path) := by
  intro gs
  induction gs with
  | nil =>
    intro cur rest A R _ _ _ _ _ _ _ _
    rfl
  | cons g gs' ih =>
    intro cur rest A R hsplit hA hR hsub hAn hRn hnd hgs
    have hgprops := hgs g (List.mem_cons_self g gs')
    have hgname : g.file_name ∉ gs'.map fun f => f.file_name := by
      rw [List.map_cons] at hnd
      exact (List.nodup_cons.mp hnd).1
    have hnd' : (gs'.map fun f => f.file_name).Nodup := by
      rw [List.map_cons] at hnd
      exact (List.nodup_cons.mp hnd).2
    have hgsrest : ∀ f ∈ gs', f.is_directory = false ∧ f.isEmptyFile = false ∧
        1 ≤ f.chunks := fun f hf => hgs f (List.mem_cons_of_mem g hf)
    have hflat : ((g :: gs').map (chunkRowsFor shaOf)).flatten =
        chunkRowsFor shaOf g ++ (gs'.map (chunkRowsFor shaOf)).flatten := by
      rw [List.map_cons, List.flatten_cons]
    rcases hfA : A.filter chunkBearing with _ | ⟨w, ws⟩
    · have hLHS : chunkDeltaLoop cur rest
          ((g :: gs').map (chunkRowsFor shaOf)).flatten = [] := by
        apply chunkDeltaLoop_skips_all _ cur rest A R hsplit hA hR
        · intro r hr hm
          rcases hcb : chunkBearing r with _ | _
          · rcases List.mem_map.mp hm with ⟨c, hc, hcp⟩
            have hp := flatten_paths_sub shaOf (g :: gs') c hc
            rw [hcp] at hp
            exact hAn r hr hcb hp
          · have hmem : r ∈ A.filter chunkBearing := List.mem_filter.mpr ⟨hr, hcb⟩
            rw [hfA] at hmem
            cases hmem
        · intro r hr hm
          rcases List.mem_map.mp hm with ⟨c, hc, hcp⟩
          have hp := flatten_paths_sub shaOf (g :: gs') c hc
          rw [hcp] at hp
          exact hRn r hr hp
      rw [hLHS]
      symm
      rw [List.filter_eq_nil_iff]
      intro c _
      intro hcontains
      have : c.file_path ∈ (([] : List BuildManifestRecord).map
          fun r => r.file_name) := List.elem_iff.mp hcontains
      cases this
    · -- A has a first chunk-bearing row w
      rcases filter_eq_cons_split chunkBearing A w ws hfA with
        ⟨P, A3, hAsplit, hPncb, hwcb, hA3f⟩
      have hwmem : w ∈ A := by
        rw [hAsplit]
        exact List.mem_append_right P (List.mem_cons_self w A3)
      have htagw : ¬ w.tag = some ChangeTag.Removed := hA w hwmem
      have hcbw : (w.is_directory || w.isEmptyFile) = false :=
        (cb_true_iff w).mp hwcb
      have hdssplit : cur :: rest = P ++ w :: (A3 ++ R) := by
        rw [hsplit, hAsplit, List.append_assoc, List.cons_append]
      have hskipw : skipDirs cur rest = (w, A3 ++ R) :=
        skipDirs_through P w (A3 ++ R) cur rest hdssplit
          (fun p hp => (cb_false_iff p).mp (hPncb p hp)) hcbw
      have hAne : A ≠ [] := by
        rw [hAsplit]
        intro hnil
        cases P <;> cases hnil
      have htagcur : ¬ cur.tag = some ChangeTag.Removed := by
        cases hAcases : A with
        | nil => exact absurd hAcases hAne
        | cons a A'' =>
          rw [hAcases, List.cons_append] at hsplit
          have hcura : cur = a := by injection hsplit
          rw [hcura]
          exact hA a (by rw [hAcases]; exact List.mem_cons_self a A'')
      -- the head block is non-empty
      have hblkne : chunkRowsFor shaOf g ≠ [] := by
        unfold chunkRowsFor
        intro hnil
        rw [List.map_eq_nil] at hnil
        rw [List.range_eq_nil] at hnil
        omega
      rcases List.exists_cons_of_ne_nil hblkne with ⟨c0, bs, hc0⟩
      have hnorm : chunkDeltaLoop cur rest
          ((g :: gs').map (chunkRowsFor shaOf)).flatten =
          chunkDeltaLoop w (A3 ++ R)
            ((g :: gs').map (chunkRowsFor shaOf)).flatten := by
        rw [hflat, hc0, List.cons_append]
        exact chunkDeltaLoop_normalize htagcur hskipw hcbw htagw _ _
      rw [hfA] at hsub
      rw [List.map_cons, List.map_cons] at hsub
      rcases sublist_cons_cases hsub with hskipcase | ⟨hpair, hemitcase⟩
      · have hwnamemem : w.file_name ∈ gs'.map fun f => f.file_name := by
          have hm : (w.file_name, w.chunks) ∈
              gs'.map fun f => (f.file_name, f.chunks) := by
            apply hskipcase.subset
            exact List.mem_cons_self _ _
          rcases List.mem_map.mp hm with ⟨f, hf, hpf⟩
          have hfn : f.file_name = w.file_name := congrArg Prod.fst hpf
          rw [← hfn]
          exact List.mem_map_of_mem _ hf
        have hwgne : w.file_name ≠ g.file_name := by
          intro he
          rw [he] at hwnamemem
          exact hgname hwnamemem
        have hskipblk : chunkDeltaLoop w (A3 ++ R)
            (chunkRowsFor shaOf g ++ (gs'.map (chunkRowsFor shaOf)).flatten) =
            chunkDeltaLoop w (A3 ++ R)
              ((gs'.map (chunkRowsFor shaOf)).flatten) := by
          apply chunkDeltaLoop_skip_rows hcbw htagw
          intro c hc
          rw [blk_path shaOf g c hc]
          exact Ne.symm hwgne
        have hfltr : (w :: A3).filter chunkBearing = w :: ws := by
          rw [List.filter_cons, hwcb, if_pos rfl, hA3f]
        have hihres := ih w (A3 ++ R) (w :: A3) R (List.cons_append w A3 R).symm
          (fun r hr => by
            rcases List.mem_cons.mp hr with heq | hr3
            · rw [heq]
              exact htagw
            · refine hA r ?_
              rw [hAsplit]
              exact List.mem_append_right P (List.mem_cons_of_mem w hr3))
          hR
          (by
            rw [hfltr, List.map_cons]
            exact hskipcase)
          (fun r hr hcb => by
            rcases List.mem_cons.mp hr with heq | hr3
            · rw [heq, hwcb] at hcb
              cases hcb
            · have hx := hAn r (by
                rw [hAsplit]
                exact List.mem_append_right P (List.mem_cons_of_mem w hr3)) hcb
              rw [List.map_cons] at hx
              exact fun hm => hx (List.mem_cons_of_mem _ hm))
          (fun r hr => by
            have hx := hRn r hr
            rw [List.map_cons] at hx
            exact fun hm => hx (List.mem_cons_of_mem _ hm))
          hnd' hgsrest
        rw [hfltr] at hihres
        rw [hnorm, hflat, hskipblk, hihres]
        have hfempty : (chunkRowsFor shaOf g).filter
            (fun c => ((w :: ws).map fun r => r.file_name).contains
              c.file_path) = [] := by
          rw [List.filter_eq_nil_iff]
          intro c hc hcontains
          have hmemnames : c.file_path ∈ (w :: ws).map fun r => r.file_name :=
            List.elem_iff.mp hcontains
          rw [blk_path shaOf g c hc] at hmemnames
          rw [List.map_cons] at hmemnames
          rcases List.mem_cons.mp hmemnames with he | hm
          · exact hwgne he.symm
          · have hsubws : (ws.map fun r => (r.file_name, r.chunks)).Sublist
                (gs'.map fun f => (f.file_name, f.chunks)) :=
              List.sublist_of_cons_sublist hskipcase
            rcases List.mem_map.mp hm with ⟨r, hrws, hrname⟩
            have hgmem : g.file_name ∈ gs'.map fun f => f.file_name := by
              rw [← hrname]
              exact names_sub_of_pairs_sub hsubws r hrws
            exact hgname hgmem
        rw [List.filter_append, hfempty, List.nil_append]
      · have hwname : w.file_name = g.file_name := congrArg Prod.fst hpair
        have hwchunks : w.chunks = g.chunks := congrArg Prod.snd hpair
        have hblkw : chunkRowsFor shaOf g = (List.range' 0 w.chunks).map
            (fun j => (⟨j, w.file_name, shaOf w.file_name j⟩ :
              BuildManifestChunksRecord)) := by
          unfold chunkRowsFor
          rw [List.range_eq_range' g.chunks, ← hwname, ← hwchunks]
        have hchk1 : 1 ≤ w.chunks := by
          rw [hwchunks]
          exact hgprops.2.2
        have hblkpaths : ∀ c ∈ (List.range' 0 w.chunks).map
            (fun j => (⟨j, w.file_name, shaOf w.file_name j⟩ :
              BuildManifestChunksRecord)), c.file_path = w.file_name := by
          intro c hc
          rcases List.mem_map.mp hc with ⟨j, _, hrow⟩
          rw [← hrow]
        have hkeep : ((List.range' 0 w.chunks).map
            (fun j => (⟨j, w.file_name, shaOf w.file_name j⟩ :
              BuildManifestChunksRecord))).filter
            (fun c => ((w :: ws).map fun r => r.file_name).contains
              c.file_path) = (List.range' 0 w.chunks).map
            (fun j => (⟨j, w.file_name, shaOf w.file_name j⟩ :
              BuildManifestChunksRecord)) := by
          rw [List.filter_eq_self]
          intro c hc
          rw [hblkpaths c hc, List.map_cons]
          simp [List.contains_cons]
        rw [hnorm, hflat, hblkw]
        cases hA3R : A3 ++ R with
        | nil =>
          rcases List.append_eq_nil.mp hA3R with ⟨hA3nil, _⟩
          have hws : ws = [] := by
            rw [hA3nil] at hA3f
            exact hA3f.symm
          rw [chunkDeltaLoop_emit_block_nil shaOf hcbw htagw hchk1]
          symm
          rw [List.filter_append, hkeep]
          have hrest0 : ((gs'.map (chunkRowsFor shaOf)).flatten).filter
              (fun c => ((w :: ws).map fun r => r.file_name).contains
                c.file_path) = [] := by
            rw [List.filter_eq_nil_iff]
            intro c hc hcontains
            have hmemnames : c.file_path ∈ (w :: ws).map fun r => r.file_name :=
              List.elem_iff.mp hcontains
            rw [hws, List.map_cons, List.map_nil] at hmemnames
            rcases List.mem_cons.mp hmemnames with he | hmm
            · have hcp := flatten_paths_sub shaOf gs' c hc
              rw [he, hwname] at hcp
              exact hgname hcp
            · cases hmm
          rw [hrest0, List.append_nil]
        | cons f fs =>
          rw [chunkDeltaLoop_emit_block_cons shaOf f fs hcbw htagw hchk1]
          have hihres := ih f fs A3 R hA3R.symm
            (fun r hr => hA r (by
              rw [hAsplit]
              exact List.mem_append_right P (List.mem_cons_of_mem w hr)))
            hR
            (by
              rw [hA3f]
              exact hemitcase)
            (fun r hr hcb => by
              have hx := hAn r (by
                rw [hAsplit]
                exact List.mem_append_right P (List.mem_cons_of_mem w hr)) hcb
              rw [List.map_cons] at hx
              exact fun hm => hx (List.mem_cons_of_mem _ hm))
            (fun r hr => by
              have hx := hRn r hr
              rw [List.map_cons] at hx
              exact fun hm => hx (List.mem_cons_of_mem _ hm))
            hnd' hgsrest
          rw [hA3f] at hihres
          rw [hihres]
          symm
          rw [List.filter_append, hkeep]
          have hcongr : ((gs'.map (chunkRowsFor shaOf)).flatten).filter
              (fun c => ((w :: ws).map fun r => r.file_name).contains
                c.file_path) =
              ((gs'.map (chunkRowsFor shaOf)).flatten).filter
              (fun c => (ws.map fun r => r.file_name).contains c.file_path) := by
            apply List.filter_congr
            intro c hc
            have hcp := flatten_paths_sub shaOf gs' c hc
            have hne : c.file_path ≠ w.file_name := by
              rw [hwname]
              intro he
              rw [he] at hcp
              exact hgname hcp
            rw [List.map_cons, List.contains_cons]
            rw [beq_eq_false_iff_ne.mpr hne]
            rw [Bool.false_or]
          rw [hcongr]

/-- Claim C5 (amended): for a delta manifest split as dAM ++ dR with all
Added/Modified rows before all Removed rows, and a new chunk manifest that
is the concatenation of per-file blocks (ids 0..chunks-1 in order) over a
file list `allFiles` of pairwise-distinct, non-directory, non-empty,
chunk-bearing files that contains dAM's chunk-bearing rows as a
subsequence (by name and chunk count) — with directory/empty delta rows and
Removed rows naming no chunk-bearing file — the computation emits exactly
the chunk rows whose file_path belongs to an Added or Modified
non-directory, non-empty file of the delta manifest, in the order of the
new chunk manifest, advancing the cursor on each last chunk and stopping at
the Removed section. (The original claim quantified over arbitrary chunk
manifests; the alignment hypotheses are necessary, see the
counterexample.) -/
theorem chunk_delta_restricts_to_added_modified
    (shaOf : String → Nat → List Char)
    (dAM dR allFiles : List BuildManifestRecord)
    (hne : dAM ++ dR ≠ [])
    (hA : ∀ r ∈ dAM, ¬ r.tag = some ChangeTag.Removed)
    (hR : ∀ r ∈ dR, r.tag = some ChangeTag.Removed)
    (hsub : ((dAM.filter chunkBearing).map fun r => (r.file_name, r.chunks)).Sublist
      (allFiles.map fun f => (f.file_name, f.chunks)))
    (hAn : ∀ r ∈ dAM, chunkBearing r = false →
      r.file_name ∉ allFiles.map fun f => f.file_name)
    (hRn : ∀ r ∈ dR, r.file_name ∉ allFiles.map fun f => f.file_name)
    (hnd : (allFiles.map fun f => f.file_name).Nodup)
    (hgs : ∀ f ∈ allFiles, f.is_directory = false ∧ f.isEmptyFile = false ∧
      1 ≤ f.chunks) :
    generate_delta_chunks_manifest (dAM ++ dR)
        ((allFiles.map (chunkRowsFor shaOf)).flatten) =
      some (((allFiles.map (chunkRowsFor shaOf)).flatten).filter
        (fun c => ((dAM.filter chunkBearing).map fun r => r.file_name).contains
          c.file_path)) := by
  cases hd : dAM ++ dR with
  | nil => exact absurd hd hne
  | cons d ds =>
    have hred : generate_delta_chunks_manifest (d :: ds)
        ((allFiles.map (chunkRowsFor shaOf)).flatten) =
        some (chunkDeltaLoop d ds
          ((allFiles.map (chunkRowsFor shaOf)).flatten)) := rfl
    rw [hred]
    exact congrArg some (chunkDeltaLoop_spec shaOf allFiles d ds dAM dR
      hd.symm hA hR hsub hAn hRn hnd hgs)

/-- Witness for the amended C5: scenario 5 of the specification — the delta
is (b.txt, Modified), (c.txt, Added) followed by (d.txt, Removed); the new
chunk manifest has one chunk each for a.txt, b.txt, c.txt; the chunk delta
is exactly b.txt's and c.txt's chunks, in manifest order. -/
theorem chunk_delta_restricts_witness :
    generate_delta_chunks_manifest
        ([{ size_in_bytes := 5, chunks := 1, sha := "Z", flags := 0,
            file_name := "b.txt", tag := some ChangeTag.Modified },
          { size_in_bytes := 5, chunks := 1, sha := "W", flags := 0,
            file_name := "c.txt", tag := some ChangeTag.Added }] ++
         [{ size_in_bytes := 5, chunks := 1, sha := "Q", flags := 0,
            file_name := "d.txt", tag := some ChangeTag.Removed }])
        (([{ size_in_bytes := 5, chunks := 1, sha := "X", flags := 0,
             file_name := "a.txt", tag := none },
           { size_in_bytes := 5, chunks := 1, sha := "Z", flags := 0,
             file_name := "b.txt", tag := none },
           { size_in_bytes := 5, chunks := 1, sha := "W", flags := 0,
             file_name := "c.txt", tag := none }].map
          (chunkRowsFor fun _ _ => ['s'])).flatten) =
      some [⟨0, "b.txt", ['s']⟩, ⟨0, "c.txt", ['s']⟩] := by
  have h := chunk_delta_restricts_to_added_modified (fun _ _ => ['s'])
    [{ size_in_bytes := 5, chunks := 1, sha := "Z", flags := 0,
       file_name := "b.txt", tag := some ChangeTag.Modified },
     { size_in_bytes := 5, chunks := 1, sha := "W", flags := 0,
       file_name := "c.txt", tag := some ChangeTag.Added }]
    [{ size_in_bytes := 5, chunks := 1, sha := "Q", flags := 0,
       file_name := "d.txt", tag := some ChangeTag.Removed }]
    [{ size_in_bytes := 5, chunks := 1, sha := "X", flags := 0,
       file_name := "a.txt", tag := none },
     { size_in_bytes := 5, chunks := 1, sha := "Z", flags := 0,
       file_name := "b.txt", tag := none },
     { size_in_bytes := 5, chunks := 1, sha := "W", flags := 0,
       file_name := "c.txt", tag := none }]
    (by decide) (by decide) (by decide) (by decide) (by decide) (by decide)
    (by decide) (by decide)
  exact h.trans (by decide)

/-! ## Phase A: planning the file tree
(src/helpers.rs `build_from_manifest` lines 326-376 and `prepare_file`
lines 560-590.)

Paths are component lists (the interpretation of `install_path.join(...)`
applied to a manifest file name is a parameter `parse`); the filesystem is
a partial map from paths to entries, and each tokio::fs call is a
fallible operation on it (`none` models the error that `?` propagates,
aborting Phase A). -/

/-- A filesystem entry: a directory or a file with its bytes. -/
inductive FsEntry
  | dir
  | file (content : List Nat)
deriving DecidableEq, Repr

def Fs : Type :=
  List String → Option FsEntry

/-- `p` is `q` or an ancestor of `q` (component-wise path containment). -/
def pathLe : List String → List String → Bool
  | [], _ => true
  | _ :: _, [] => false
  | a :: as, b :: bs => a == b && pathLe as bs

def fsSet (fs : Fs) (p : List String) (e : FsEntry) : Fs :=
  fun q => if q = p then some e else fs q

/-- `tokio::fs::remove_dir_all`: removes the path and everything under it. -/
def removeDirAll (fs : Fs) (p : List String) : Fs :=
  fun q => if pathLe p q then none else fs q

/-- `tokio::fs::remove_file`. -/
def removeFile (fs : Fs) (p : List String) : Fs :=
  fun q => if q = p then none else fs q

def parent (p : List String) : List String :=
  p.dropLast

/-- `tokio::fs::create_dir` (non-recursive): fails if the path exists or
its parent is not a directory. -/
def createDir (fs : Fs) (p : List String) : Option Fs :=
  match fs p with
  | some _ => none
  | none =>
    match fs (parent p) with
    | some FsEntry.dir => some (fsSet fs p FsEntry.dir)
    | _ => none

/-- `tokio::fs::File::create`: truncates an existing file or creates a new
one; fails on a directory or a missing parent. -/
def createFile (fs : Fs) (p : List String) : Option Fs :=
  match fs p with
  | some (FsEntry.file _) => some (fsSet fs p (FsEntry.file []))
  | some FsEntry.dir => none
  | none =>
    match fs (parent p) with
    | some FsEntry.dir => some (fsSet fs p (FsEntry.file []))
    | _ => none

/-- `prepare_file`: create the directory when absent, or create/truncate an
empty file. -/
def prepare_file (fs : Fs) (p : List String) (is_directory : Bool) :
    Option Fs :=
  if is_directory then
    if fs p = none then createDir fs p else some fs
  else createFile fs p

/-- One iteration of the Phase A loop (lines 335-375): a Modified or
Removed entry is deleted from disk when present (`remove_dir_all` for a
directory — after which the loop does `continue`, so a Modified directory
is NOT re-created — `remove_file` otherwise, with Removed entries also
skipping `prepare_file`); every other entry goes through `prepare_file`. -/
def stepA (parse : String → List String) (fs : Fs)
    (r : BuildManifestRecord) : Option Fs :=
  let p := parse r.file_name
  if r.tag = some ChangeTag.Modified ∨ r.tag = some ChangeTag.Removed then
    if r.is_directory then
      some (if fs p = some FsEntry.dir then removeDirAll fs p else fs)
    else
      let fs1 :=
        match fs p with
        | some (FsEntry.file _) => removeFile fs p
        | _ => fs
      if r.tag = some ChangeTag.Removed then some fs1
      else prepare_file fs1 p r.is_directory
  else prepare_file fs p r.is_directory

/-- The whole Phase A loop over the (delta) file manifest. -/
def phaseA (parse : String → List String) : Fs → List BuildManifestRecord →
    Option Fs
  | fs, [] => some fs
  | fs, r :: rs =>
    match stepA parse fs r with
    | none => none
    | some fs1 => phaseA parse fs1 rs

/-- Claim C9 counterexample: a directory entry tagged Modified (here "d",
which exists on disk under an install root) is deleted by the
Modified/Removed branch and then skipped by its `continue` — Phase A ends
successfully with "d" absent, not re-created as a directory. -/
theorem phase_a_modified_dir_counterexample :
    Option.map (fun f => f ["d"])
      (phaseA (fun s => [s])
        (fun q => if q = ([] : List String) then some FsEntry.dir
          else if q = ["d"] then some FsEntry.dir else none)
        [{ size_in_bytes := 0, chunks := 0, sha := "", flags := 40,
           file_name := "d", tag := some ChangeTag.Modified }]) =
      some none := by
  rfl

theorem pathLe_refl : ∀ p : List String, pathLe p p = true := by
  intro p
  induction p with
  | nil => rfl
  | cons a as ih =>
    unfold pathLe
    rw [ih]
    simp

theorem pathLe_comparable :
    ∀ (q a b : List String), pathLe a q = true → pathLe b q = true →
    pathLe a b = true ∨ pathLe b a = true := by
  intro q
  induction q with
  | nil =>
    intro a b ha hb
    cases a with
    | nil => left; rfl
    | cons x as => cases ha
  | cons z qs ih =>
    intro a b ha hb
    cases a with
    | nil => left; rfl
    | cons x as =>
      cases b with
      | nil => right; rfl
      | cons y bs =>
        unfold pathLe at ha hb
        rcases (Bool.and_eq_true _ _).mp ha with ⟨hxz, has⟩
        rcases (Bool.and_eq_true _ _).mp hb with ⟨hyz, hbs⟩
        have hxy : x = y := by
          rw [beq_iff_eq] at hxz hyz
          rw [hxz, hyz]
        rcases ih as bs has hbs with h | h
        · left
          unfold pathLe
          rw [h, hxy]
          simp
        · right
          unfold pathLe
          rw [h, hxy]
          simp

/-- Whether an optional entry is a file. -/
def entryIsFile : Option FsEntry → Bool
  | some (FsEntry.file _) => true
  | _ => false

/-- Type-compatibility of the on-disk state with a manifest row: a
directory row's path is not occupied by a file, a file row's path not by a
directory. -/
def compatAt (parse : String → List String) (fs : Fs)
    (r : BuildManifestRecord) : Prop :=
  (r.is_directory = true → entryIsFile (fs (parse r.file_name)) = false) ∧
  (r.is_directory = false → fs (parse r.file_name) ≠ some FsEntry.dir)

/-- A row whose Phase A processing deletes a whole subtree. -/
def destrDir (r : BuildManifestRecord) : Prop :=
  (r.tag = some ChangeTag.Modified ∨ r.tag = some ChangeTag.Removed) ∧
    r.is_directory = true

theorem createDir_untouched {fs fs' : Fs} {p : List String}
    (h : createDir fs p = some fs') :
    ∀ q, q ≠ p → fs' q = fs q := by
  intro q hq
  unfold createDir at h
  rcases h1 : fs p with _ | e <;> rw [h1] at h
  · rcases h2 : fs (parent p) with _ | e2 <;> rw [h2] at h
    · cases h
    · cases e2 with
      | dir =>
        cases h
        unfold fsSet
        rw [if_neg hq]
      | file c => cases h
  · cases h

theorem createDir_val {fs fs' : Fs} {p : List String}
    (h : createDir fs p = some fs') : fs' p = some FsEntry.dir := by
  unfold createDir at h
  rcases h1 : fs p with _ | e <;> rw [h1] at h
  · rcases h2 : fs (parent p) with _ | e2 <;> rw [h2] at h
    · cases h
    · cases e2 with
      | dir =>
        cases h
        unfold fsSet
        rw [if_pos rfl]
      | file c => cases h
  · cases h

theorem createFile_untouched {fs fs' : Fs} {p : List String}
    (h : createFile fs p = some fs') :
    ∀ q, q ≠ p → fs' q = fs q := by
  intro q hq
  unfold createFile at h
  rcases h1 : fs p with _ | e <;> rw [h1] at h
  · rcases h2 : fs (parent p) with _ | e2 <;> rw [h2] at h
    · cases h
    · cases e2 with
      | dir =>
        cases h
        unfold fsSet
        rw [if_neg hq]
      | file c => cases h
  · cases e with
    | dir => cases h
    | file c =>
      cases h
      unfold fsSet
      rw [if_neg hq]

theorem createFile_val {fs fs' : Fs} {p : List String}
    (h : createFile fs p = some fs') : fs' p = some (FsEntry.file []) := by
  unfold createFile at h
  rcases h1 : fs p with _ | e <;> rw [h1] at h
  · rcases h2 : fs (parent p) with _ | e2 <;> rw [h2] at h
    · cases h
    · cases e2 with
      | dir =>
        cases h
        unfold fsSet
        rw [if_pos rfl]
      | file c => cases h
  · cases e with
    | dir => cases h
    | file c =>
      cases h
      unfold fsSet
      rw [if_pos rfl]

theorem prepare_file_untouched {fs fs' : Fs} {p : List String}
    {b : Bool} (h : prepare_file fs p b = some fs') :
    ∀ q, q ≠ p → fs' q = fs q := by
  intro q hq
  unfold prepare_file at h
  cases b with
  | true =>
    rw [if_pos rfl] at h
    by_cases h1 : fs p = none
    · rw [if_pos h1] at h
      exact createDir_untouched h q hq
    · rw [if_neg h1] at h
      cases h
      rfl
  | false =>
    rw [if_neg Bool.false_ne_true] at h
    exact createFile_untouched h q hq

theorem prepare_file_dir_val {fs fs' : Fs} {p : List String}
    (h : prepare_file fs p true = some fs')
    (hnf : entryIsFile (fs p) = false) : fs' p = some FsEntry.dir := by
  unfold prepare_file at h
  rw [if_pos rfl] at h
  by_cases h1 : fs p = none
  · rw [if_pos h1] at h
    exact createDir_val h
  · rw [if_neg h1] at h
    cases h
    rcases h2 : fs p with _ | e
    · exact absurd h2 h1
    · cases e with
      | dir => rfl
      | file c =>
        rw [h2] at hnf
        exact absurd hnf (by simp [entryIsFile])

theorem prepare_file_file_val {fs fs' : Fs} {p : List String}
    (h : prepare_file fs p false = some fs') :
    fs' p = some (FsEntry.file []) := by
  unfold prepare_file at h
  rw [if_neg Bool.false_ne_true] at h
  exact createFile_val h

theorem stepA_eq (parse : String → List String) (fs : Fs)
    (r : BuildManifestRecord) :
    stepA parse fs r =
      if r.tag = some ChangeTag.Modified ∨ r.tag = some ChangeTag.Removed then
        if r.is_directory then
          some (if fs (parse r.file_name) = some FsEntry.dir then
            removeDirAll fs (parse r.file_name) else fs)
        else
          if r.tag = some ChangeTag.Removed then
            some (match fs (parse r.file_name) with
              | some (FsEntry.file _) => removeFile fs (parse r.file_name)
              | _ => fs)
          else
            prepare_file
              (match fs (parse r.file_name) with
                | some (FsEntry.file _) => removeFile fs (parse r.file_name)
                | _ => fs) (parse r.file_name) r.is_directory
      else prepare_file fs (parse r.file_name) r.is_directory := rfl

theorem del_file_untouched (fs : Fs) (p q : List String) (hq : q ≠ p) :
    (match fs p with
      | some (FsEntry.file _) => removeFile fs p
      | _ => fs) q = fs q := by
  rcases h1 : fs p with _ | e
  · rfl
  · cases e with
    | dir => rfl
    | file c =>
      show (if q = p then (none : Option FsEntry) else fs q) = fs q
      rw [if_neg hq]

theorem del_file_val (fs : Fs) (p : List String)
    (hnd : fs p ≠ some FsEntry.dir) :
    (match fs p with
      | some (FsEntry.file _) => removeFile fs p
      | _ => fs) p = none := by
  rcases h1 : fs p with _ | e
  · exact h1
  · cases e with
    | dir => exact absurd h1 hnd
    | file c =>
      show (if p = p then (none : Option FsEntry) else fs p) = none
      rw [if_pos rfl]

theorem stepA_frame {parse : String → List String} {fs fs' : Fs}
    {r : BuildManifestRecord} (h : stepA parse fs r = some fs') :
    ∀ q, q ≠ parse r.file_name →
      (destrDir r → pathLe (parse r.file_name) q = false) →
      fs' q = fs q := by
  intro q hq hd
  rw [stepA_eq] at h
  by_cases ht : r.tag = some ChangeTag.Modified ∨ r.tag = some ChangeTag.Removed
  · rw [if_pos ht] at h
    by_cases hdir : r.is_directory = true
    · rw [if_pos hdir] at h
      cases h
      have hple := hd ⟨ht, hdir⟩
      by_cases hfs : fs (parse r.file_name) = some FsEntry.dir
      · rw [if_pos hfs]
        simp [removeDirAll, hple]
      · rw [if_neg hfs]
    · rw [if_neg hdir] at h
      by_cases hrem : r.tag = some ChangeTag.Removed
      · rw [if_pos hrem] at h
        cases h
        exact del_file_untouched fs (parse r.file_name) q hq
      · rw [if_neg hrem] at h
        rw [prepare_file_untouched h q hq]
        exact del_file_untouched fs (parse r.file_name) q hq
  · rw [if_neg ht] at h
    exact prepare_file_untouched h q hq

theorem stepA_val_removed {parse : String → List String} {fs fs' : Fs}
    {r : BuildManifestRecord} (h : stepA parse fs r = some fs')
    (hrem : r.tag = some ChangeTag.Removed)
    (hc : compatAt parse fs r) : fs' (parse r.file_name) = none := by
  rw [stepA_eq, if_pos (Or.inr hrem)] at h
  by_cases hdir : r.is_directory = true
  · rw [if_pos hdir] at h
    cases h
    by_cases hfs : fs (parse r.file_name) = some FsEntry.dir
    · rw [if_pos hfs]
      simp [removeDirAll, pathLe_refl]
    · rw [if_neg hfs]
      have hnf := hc.1 hdir
      rcases hval : fs (parse r.file_name) with _ | e
      · rfl
      · cases e with
        | dir => exact absurd hval hfs
        | file c =>
          rw [hval] at hnf
          simp [entryIsFile] at hnf
  · rw [if_neg hdir, if_pos hrem] at h
    cases h
    exact del_file_val fs (parse r.file_name)
      (hc.2 (Bool.eq_false_iff.mpr hdir))

theorem stepA_val_dir_keep {parse : String → List String} {fs fs' : Fs}
    {r : BuildManifestRecord} (h : stepA parse fs r = some fs')
    (hdir : r.is_directory = true)
    (hm : r.tag ≠ some ChangeTag.Modified)
    (hr : r.tag ≠ some ChangeTag.Removed)
    (hnf : entryIsFile (fs (parse r.file_name)) = false) :
    fs' (parse r.file_name) = some FsEntry.dir := by
  have ht : ¬(r.tag = some ChangeTag.Modified ∨
      r.tag = some ChangeTag.Removed) := by
    rintro (h1 | h1)
    · exact hm h1
    · exact hr h1
  rw [stepA_eq, if_neg ht, hdir] at h
  exact prepare_file_dir_val h hnf

theorem stepA_val_dir_modified {parse : String → List String} {fs fs' : Fs}
    {r : BuildManifestRecord} (h : stepA parse fs r = some fs')
    (hdir : r.is_directory = true)
    (hm : r.tag = some ChangeTag.Modified)
    (hnf : entryIsFile (fs (parse r.file_name)) = false) :
    fs' (parse r.file_name) = none := by
  rw [stepA_eq, if_pos (Or.inl hm), if_pos hdir] at h
  cases h
  by_cases hfs : fs (parse r.file_name) = some FsEntry.dir
  · rw [if_pos hfs]
    simp [removeDirAll, pathLe_refl]
  · rw [if_neg hfs]
    rcases hval : fs (parse r.file_name) with _ | e
    · rfl
    · cases e with
      | dir => exact absurd hval hfs
      | file c =>
        rw [hval] at hnf
        simp [entryIsFile] at hnf

theorem stepA_val_file_keep {parse : String → List String} {fs fs' : Fs}
    {r : BuildManifestRecord} (h : stepA parse fs r = some fs')
    (hdir : r.is_directory = false)
    (hr : r.tag ≠ some ChangeTag.Removed) :
    fs' (parse r.file_name) = some (FsEntry.file []) := by
  rw [stepA_eq] at h
  by_cases hm : r.tag = some ChangeTag.Modified
  · rw [if_pos (Or.inl hm), hdir, if_neg Bool.false_ne_true,
      if_neg hr] at h
    exact prepare_file_file_val h
  · have ht : ¬(r.tag = some ChangeTag.Modified ∨
        r.tag = some ChangeTag.Removed) := by
      rintro (h1 | h1)
      · exact hm h1
      · exact hr h1
    rw [if_neg ht, hdir] at h
    exact prepare_file_file_val h

theorem stepA_val_subtree {parse : String → List String} {fs fs' : Fs}
    {r : BuildManifestRecord} (h : stepA parse fs r = some fs')
    (hd : destrDir r)
    (hfs : fs (parse r.file_name) = some FsEntry.dir) :
    ∀ q, pathLe (parse r.file_name) q = true → fs' q = none := by
  rw [stepA_eq, if_pos hd.1, if_pos hd.2] at h
  cases h
  intro q hq
  rw [if_pos hfs]
  simp [removeDirAll, hq]

theorem phaseA_frame {parse : String → List String} :
    ∀ {records : List BuildManifestRecord} {fs fs' : Fs},
    phaseA parse fs records = some fs' →
    ∀ q, (∀ r ∈ records, q ≠ parse r.file_name) →
      (∀ r ∈ records, destrDir r → pathLe (parse r.file_name) q = false) →
      fs' q = fs q := by
  intro records
  induction records with
  | nil =>
    intro fs fs' h q _ _
    cases h
    rfl
  | cons r0 rs ih =>
    intro fs fs' h q hq hd
    rcases h1 : stepA parse fs r0 with _ | fs1 <;> rw [phaseA, h1] at h
    · exact Option.noConfusion h
    · have h2 := ih h q (fun r hr => hq r (List.mem_cons_of_mem _ hr))
        (fun r hr hdr => hd r (List.mem_cons_of_mem _ hr) hdr)
      rw [h2]
      exact stepA_frame h1 q (hq r0 (List.mem_cons_self r0 rs))
        (hd r0 (List.mem_cons_self r0 rs))

/-- Claim C9 (corrected): after Phase A over a delta file manifest whose
parsed paths are pairwise distinct, type-compatible with the starting
tree, and whose destructive directory rows (Modified/Removed directories)
are path-disjoint from the other rows, every Removed row's path is absent;
every directory row tagged neither Modified nor Removed exists as a
directory; every MODIFIED directory row's path is ABSENT (deleted and not
re-created, contrary to the claim's "every directory entry not tagged
Removed exists as a directory"); every non-directory row not tagged
Removed exists as an empty (truncated) file; and a Modified/Removed
directory that existed on disk has its whole subtree deleted. -/
theorem phase_a_tree_planning (parse : String → List String) :
    ∀ (records : List BuildManifestRecord) (fs0 fsF : Fs),
    phaseA parse fs0 records = some fsF →
    (records.map (fun r => parse r.file_name)).Nodup →
    (∀ r ∈ records, compatAt parse fs0 r) →
    (∀ d ∈ records, destrDir d → ∀ r ∈ records,
      parse d.file_name ≠ parse r.file_name →
      pathLe (parse d.file_name) (parse r.file_name) = false) →
    ∀ r ∈ records,
      (r.tag = some ChangeTag.Removed → fsF (parse r.file_name) = none) ∧
      (r.is_directory = true → r.tag ≠ some ChangeTag.Modified →
        r.tag ≠ some ChangeTag.Removed →
        fsF (parse r.file_name) = some FsEntry.dir) ∧
      (r.is_directory = true → r.tag = some ChangeTag.Modified →
        fsF (parse r.file_name) = none) ∧
      (r.is_directory = false → r.tag ≠ some ChangeTag.Removed →
        fsF (parse r.file_name) = some (FsEntry.file [])) ∧
      (destrDir r → fs0 (parse r.file_name) = some FsEntry.dir →
        ∀ q, pathLe (parse r.file_name) q = true → fsF q = none) := by
  intro records
  induction records with
  | nil =>
    intro fs0 fsF _ _ _ _ r hr
    cases hr
  | cons r0 rs ih =>
    intro fs0 fsF h hnd hcompat hsolo r hr
    rcases h1 : stepA parse fs0 r0 with _ | fs1 <;> rw [phaseA, h1] at h
    · exact Option.noConfusion h
    rcases List.nodup_cons.mp hnd with ⟨hp0, hndtail⟩
    have hne : ∀ r' ∈ rs, parse r0.file_name ≠ parse r'.file_name := by
      intro r' hr' heq
      apply hp0
      have hmm : parse r0.file_name ∈
          List.map (fun r => parse r.file_name) rs := by
        rw [heq]
        exact List.mem_map_of_mem (fun r => parse r.file_name) hr'
      exact hmm
    have hF1 : ∀ r' ∈ rs,
        fs1 (parse r'.file_name) = fs0 (parse r'.file_name) := by
      intro r' hr'
      exact stepA_frame h1 _ (fun heq => hne r' hr' heq.symm)
        (fun hdr0 => hsolo r0 (List.mem_cons_self r0 rs) hdr0 r'
          (List.mem_cons_of_mem _ hr') (hne r' hr'))
    have ihh := ih fs1 fsF h hndtail
      (fun r' hr' => by
        have hcc := hcompat r' (List.mem_cons_of_mem _ hr')
        unfold compatAt at hcc ⊢
        rw [hF1 r' hr']
        exact hcc)
      (fun d hd hdd r' hr' hne' =>
        hsolo d (List.mem_cons_of_mem _ hd) hdd r'
          (List.mem_cons_of_mem _ hr') hne')
    rcases List.mem_cons.mp hr with rfl | hrtail
    · have hf : fsF (parse r.file_name) = fs1 (parse r.file_name) := by
        apply phaseA_frame h
        · exact fun r' hr' => hne r' hr'
        · intro r' hr' hdr'
          exact hsolo r' (List.mem_cons_of_mem _ hr') hdr' r
            (List.mem_cons_self r rs) (fun heq => hne r' hr' heq.symm)
      refine ⟨?_, ?_, ?_, ?_, ?_⟩
      · intro hrem
        rw [hf]
        exact stepA_val_removed h1 hrem
          (hcompat r (List.mem_cons_self r rs))
      · intro hdir hm hrrem
        rw [hf]
        exact stepA_val_dir_keep h1 hdir hm hrrem
          ((hcompat r (List.mem_cons_self r rs)).1 hdir)
      · intro hdir hm
        rw [hf]
        exact stepA_val_dir_modified h1 hdir hm
          ((hcompat r (List.mem_cons_self r rs)).1 hdir)
      · intro hdir hrrem
        rw [hf]
        exact stepA_val_file_keep h1 hdir hrrem
      · intro hdr0 hfs q hq
        have hq0 : fs1 q = none := stepA_val_subtree h1 hdr0 hfs q hq
        rw [← hq0]
        apply phaseA_frame h
        · intro r' hr' heqq
          have h3 := hsolo r (List.mem_cons_self r rs) hdr0 r'
            (List.mem_cons_of_mem _ hr') (hne r' hr')
          rw [heqq] at hq
          rw [h3] at hq
          exact Bool.noConfusion hq
        · intro r' hr' hdr'
          cases hpq : pathLe (parse r'.file_name) q with
          | false => rfl
          | true =>
            rcases pathLe_comparable q (parse r.file_name)
                (parse r'.file_name) hq hpq with hcase | hcase
            · have h3 := hsolo r (List.mem_cons_self r rs) hdr0 r'
                (List.mem_cons_of_mem _ hr') (hne r' hr')
              rw [h3] at hcase
              exact Bool.noConfusion hcase
            · have h3 := hsolo r' (List.mem_cons_of_mem _ hr') hdr' r
                (List.mem_cons_self r rs) (fun heq => hne r' hr' heq.symm)
              rw [h3] at hcase
              exact Bool.noConfusion hcase
    · have res := ihh r hrtail
      refine ⟨res.1, res.2.1, res.2.2.1, res.2.2.2.1, ?_⟩
      intro hdr hfs q hq
      apply res.2.2.2.2 hdr ?_ q hq
      rw [hF1 r hrtail]
      exact hfs

/-- The spec's tree-planning scenario: a fresh install manifest with a
directory "sub" and a file "sub/b.bin", run from a bare install root. -/
def treePlanDirRec : BuildManifestRecord :=
  { size_in_bytes := 0, chunks := 0, sha := "", flags := 40,
    file_name := "sub", tag := none }

def treePlanFileRec : BuildManifestRecord :=
  { size_in_bytes := 4, chunks := 1, sha := "s1", flags := 0,
    file_name := "sub/b.bin", tag := none }

def treePlanRecords : List BuildManifestRecord :=
  [treePlanDirRec, treePlanFileRec]

def treePlanParse : String → List String :=
  fun s => if s = "sub/b.bin" then ["sub", "b.bin"] else [s]

def treePlanFs0 : Fs :=
  fun q => if q = ([] : List String) then some FsEntry.dir else none

theorem phase_a_tree_planning_witness :
    ∃ fsF, phaseA treePlanParse treePlanFs0 treePlanRecords = some fsF ∧
      fsF ["sub"] = some FsEntry.dir ∧
      fsF ["sub", "b.bin"] = some (FsEntry.file []) := by
  have hph : phaseA treePlanParse treePlanFs0 treePlanRecords =
      some (fsSet (fsSet treePlanFs0 ["sub"] FsEntry.dir)
        ["sub", "b.bin"] (FsEntry.file [])) := by rfl
  have hcompat : ∀ r ∈ treePlanRecords,
      compatAt treePlanParse treePlanFs0 r := by
    intro r hr
    fin_cases hr <;> exact ⟨fun _ => by decide, fun _ => by decide⟩
  have hsolo : ∀ d ∈ treePlanRecords, destrDir d →
      ∀ r ∈ treePlanRecords,
      treePlanParse d.file_name ≠ treePlanParse r.file_name →
      pathLe (treePlanParse d.file_name) (treePlanParse r.file_name) =
        false := by
    intro d hd hdd
    exfalso
    fin_cases hd <;> simp [destrDir, treePlanDirRec, treePlanFileRec] at hdd
  have hall := phase_a_tree_planning treePlanParse treePlanRecords
    treePlanFs0 _ hph (by decide) hcompat hsolo
  refine ⟨_, hph, ?_, ?_⟩
  · exact (hall treePlanDirRec (by decide)).2.1 (by decide) (by decide)
      (by decide)
  · exact (hall treePlanFileRec (by decide)).2.2.2.1 (by decide) (by decide)
